import Mathlib

/-!
Shallow embedding of the `calculateLayout` graph-layout engine of the
`menteora/roadmaps` repository (source: `src/unnamed/part_003`, constants from
`src/constants.ts`, data types from the repository's `types` module).

Modelling choices:
* `date` is modelled as the integer timestamp produced by
  `new Date(node.date).getTime()`; the engine only ever compares these values.
* JavaScript `Map` objects are modelled as association lists whose `set`
  operation overwrites in place (preserving first-insertion order, as JS `Map`
  does) and appends new keys at the end; `Array.from(map.values())` is the list
  of values in that order.
* The JS stable `Array.prototype.sort` with a consistent comparator is
  modelled as a stable insertion sort by the corresponding boolean `le`.
* `window.innerWidth` / `window.innerHeight` are environmental inputs of the
  engine and are passed as explicit `viewportW` / `viewportH` parameters.
* `Math.max(...[])` is `-Infinity`; the canvas-bound computation models it with
  `Option Int` (`none` = `-Infinity`), which propagates through the additions
  exactly as the JS extended reals do on this code path.
-/

namespace Roadmaps

inductive NodeStatus where
  | active
  | completed
  | abandoned
  | standby
deriving DecidableEq, Repr

inductive LayoutOrientation where
  | vertical
  | horizontal
  | timeline
deriving DecidableEq, Repr

/-- `WorkflowNode` from the repository's `types` module (layout-relevant fields;
`title`/`description` are never read by the engine). -/
structure WorkflowNode where
  id : String
  date : Int
  status : NodeStatus
  parentIds : List String
deriving DecidableEq, Repr

/-- `RenderedNode`: a `WorkflowNode` plus `x`, `y`, `lane`, `color`. -/
structure RenderedNode where
  id : String
  date : Int
  status : NodeStatus
  parentIds : List String
  x : Int
  y : Int
  lane : Nat
  color : String
deriving DecidableEq, Repr

/-- `RenderedEdge` from the repository's `types` module. -/
structure RenderedEdge where
  id : String
  sourceX : Int
  sourceY : Int
  targetX : Int
  targetY : Int
  color : String
  status : NodeStatus
deriving DecidableEq, Repr

/-! ### Association-list maps (model of JS `Map` / numeric-keyed object) -/

def mapFind? {κ α : Type} [DecidableEq κ] : List (κ × α) → κ → Option α
  | [], _ => none
  | (k, v) :: rest, k' => if k = k' then some v else mapFind? rest k'

def mapSet {κ α : Type} [DecidableEq κ] : List (κ × α) → κ → α → List (κ × α)
  | [], k, v => [(k, v)]
  | (k', v') :: rest, k, v =>
    if k' = k then (k', v) :: rest else (k', v') :: mapSet rest k v

/-! ### Constants (`src/constants.ts`) -/

def COLORS : List String :=
  ["#3b82f6", "#10b981", "#8b5cf6", "#f59e0b", "#ec4899", "#06b6d4", "#f43f5e"]

def NODE_WIDTH : Int := 180
def NODE_HEIGHT : Int := 80
def GAP_X : Int := 50
def GAP_Y : Int := 120
def H_NODE_WIDTH : Int := 200
def H_NODE_HEIGHT : Int := 100
def H_GAP_X : Int := 250
def H_GAP_Y : Int := 80

/-! ### Stable sorting (model of JS `Array.prototype.sort`) -/

def insertOrd {α : Type} (le : α → α → Bool) (x : α) : List α → List α
  | [] => [x]
  | y :: ys => if le x y then x :: y :: ys else y :: insertOrd le x ys

def stableSort {α : Type} (le : α → α → Bool) (l : List α) : List α :=
  l.foldr (insertOrd le) []

def dateLe (a b : WorkflowNode) : Bool := decide (a.date ≤ b.date)

/-- Step 1: `[...nodes].sort((a, b) => dateA - dateB)`. -/
def sortedByDate (ns : List WorkflowNode) : List WorkflowNode :=
  stableSort dateLe ns

/-! ### Step 2: rank assignment (lines 18-66 of the source) -/

/-- One step of the `maxParentRank` / `hasParentRank` accumulation (`none`
models `hasParentRank = false`, i.e. `maxParentRank = -1`). -/
def mprStep (ranks : List (String × Nat)) (acc : Option Nat) (pid : String) :
    Option Nat :=
  match mapFind? ranks pid with
  | none => acc
  | some r =>
    match acc with
    | none => some r
    | some m => some (Nat.max m r)

/-- The `maxParentRank` / `hasParentRank` accumulation over `node.parentIds`. -/
def maxParentRank (ranks : List (String × Nat)) (pids : List String) : Option Nat :=
  pids.foldl (mprStep ranks) none

/-- One node of the rank-propagation pass; the `Bool` is the `changed` flag.
`(ranks.get(node.id) ?? -1) < newRank` is the `none`/`cur < mpr + 1` split. -/
def rankStep (st : List (String × Nat) × Bool) (node : WorkflowNode) :
    List (String × Nat) × Bool :=
  if node.parentIds.isEmpty then st
  else
    match maxParentRank st.1 node.parentIds with
    | none => st
    | some mpr =>
      match mapFind? st.1 node.id with
      | none => (mapSet st.1 node.id (mpr + 1), true)
      | some cur =>
        if cur < mpr + 1 then (mapSet st.1 node.id (mpr + 1), true) else st

/-- One full pass of the `while` loop body (`sortedNodes.forEach`). -/
def rankPass (sorted : List WorkflowNode) (ranks : List (String × Nat)) :
    List (String × Nat) × Bool :=
  sorted.foldl rankStep (ranks, false)

/-- Root initialisation: nodes with empty `parentIds` get rank `0`. -/
def initRanks (sorted : List WorkflowNode) : List (String × Nat) :=
  sorted.foldl (fun m n => if n.parentIds.isEmpty then mapSet m n.id 0 else m) []

/-- The `while (changed && iterations < maxIterations)` loop; returns the final
map together with the number of passes executed. -/
def rankLoop (sorted : List WorkflowNode) : Nat → List (String × Nat) →
    List (String × Nat) × Nat
  | 0, ranks => (ranks, 0)
  | fuel + 1, ranks =>
    let pr := rankPass sorted ranks
    if pr.2 then
      let r2 := rankLoop sorted fuel pr.1
      (r2.1, r2.2 + 1)
    else (pr.1, 1)

/-- Fallback (lines 61-66): a node still without a rank gets its index in the
date-sorted order. -/
def fallbackStep (m : List (String × Nat)) (p : Nat × WorkflowNode) :
    List (String × Nat) :=
  if (mapFind? m p.2.id).isSome then m else mapSet m p.2.id p.1

def applyFallback (sorted : List WorkflowNode) (m : List (String × Nat)) :
    List (String × Nat) :=
  sorted.enum.foldl fallbackStep m

/-- The complete rank computation of `calculateLayout` (steps 1-2 + fallback). -/
def computeRanks (ns : List WorkflowNode) : List (String × Nat) :=
  let sorted := sortedByDate ns
  applyFallback sorted (rankLoop sorted (ns.length + 2) (initRanks sorted)).1

/-- Number of passes the rank loop executes on input `ns`. -/
def rankPassCount (ns : List WorkflowNode) : Nat :=
  (rankLoop (sortedByDate ns) (ns.length + 2) (initRanks (sortedByDate ns))).2

/-! ### Step 3: lane assignment and coordinates (lines 68-145) -/

/-- Comparator of the second sort: rank ascending, then date ascending
(`ranks.get(id) ?? 0`). -/
def laneOrderLe (ranks : List (String × Nat)) (a b : WorkflowNode) : Bool :=
  let rA := (mapFind? ranks a.id).getD 0
  let rB := (mapFind? ranks b.id).getD 0
  if rA = rB then decide (a.date ≤ b.date) else decide (rA < rB)

/-- `layoutNodes`: the date-sorted list re-sorted by (rank, date). -/
def layoutOrder (ns : List WorkflowNode) : List WorkflowNode :=
  stableSort (laneOrderLe (computeRanks ns)) (sortedByDate ns)

/-- State of the lane-assignment pass: `nodeMap` (JS `Map<string, RenderedNode>`)
and `laneAllocation` (lane index → last claimant id; `null` is never stored by
the source, so absence of a key models `undefined`/`null`). -/
structure LaneState where
  nodeMap : List (String × RenderedNode)
  alloc : List (Nat × String)
deriving DecidableEq, Repr

/-- The `while (true) { ...; l++ }` scan for the first free lane.  `alloc.length`
steps of fuel suffice: the keys are at most `alloc.length` distinct naturals, so
a free index is always found within the scanned range (proved below). -/
def findFreeLaneAux (alloc : List (Nat × String)) : Nat → Nat → Nat
  | 0, l => l
  | fuel + 1, l =>
    if (mapFind? alloc l).isSome then findFreeLaneAux alloc fuel (l + 1) else l

def findFreeLane (alloc : List (Nat × String)) : Nat :=
  findFreeLaneAux alloc alloc.length 0

/-- The inheritance attempt (lines 87-96): inherit the first parent's lane iff
that parent is in `nodeMap` and still the recorded claimant of its lane. -/
def inheritedLane (st : LaneState) (node : WorkflowNode) : Option Nat :=
  match node.parentIds with
  | [] => none
  | pid :: _ =>
    match mapFind? st.nodeMap pid with
    | none => none
    | some fp =>
      if mapFind? st.alloc fp.lane = some fp.id then some fp.lane else none

/-- Colour resolution (lines 115-122). -/
def nodeColor (lane : Nat) (status : NodeStatus) : String :=
  if status = NodeStatus.abandoned then "#64748b"
  else if status = NodeStatus.standby then "#f59e0b"
  else COLORS.getD (lane % COLORS.length) ""

/-- Coordinate derivation (lines 124-136); the source's `else` branch covers
both `horizontal` and `timeline`. -/
def nodeCoords (o : LayoutOrientation) (rank lane : Nat) : Int × Int :=
  match o with
  | LayoutOrientation.vertical =>
    ((lane : Int) * (NODE_WIDTH + GAP_X) + 50, (rank : Int) * (NODE_HEIGHT + GAP_Y) + 50)
  | _ =>
    ((rank : Int) * H_GAP_X + 50, (lane : Int) * (H_NODE_HEIGHT + H_GAP_Y) + 50)

/-- The lane finally assigned to a node: the inherited lane when the
inheritance attempt succeeds, otherwise the first free lane. -/
def assignedLaneOf (st : LaneState) (node : WorkflowNode) : Nat :=
  match inheritedLane st node with
  | some l => l
  | none => findFreeLane st.alloc

/-- The `RenderedNode` built for a node at the current state (`{ ...node, x, y,
lane, color }`); the rank read is `ranks.get(node.id)!`, which is always
present for nodes of the input (proved below), modelled with default `0`. -/
def renderedOf (o : LayoutOrientation) (ranks : List (String × Nat))
    (st : LaneState) (node : WorkflowNode) : RenderedNode :=
  { id := node.id, date := node.date, status := node.status,
    parentIds := node.parentIds,
    x := (nodeCoords o ((mapFind? ranks node.id).getD 0) (assignedLaneOf st node)).1,
    y := (nodeCoords o ((mapFind? ranks node.id).getD 0) (assignedLaneOf st node)).2,
    lane := assignedLaneOf st node,
    color := nodeColor (assignedLaneOf st node) node.status }

/-- One iteration of the lane-assignment pass (lines 81-145). -/
def laneStep (o : LayoutOrientation) (ranks : List (String × Nat))
    (st : LaneState) (node : WorkflowNode) : LaneState :=
  { nodeMap := mapSet st.nodeMap node.id (renderedOf o ranks st node),
    alloc := mapSet st.alloc (assignedLaneOf st node) node.id }

/-- Final state of the lane-assignment pass. -/
def laneFinal (ns : List WorkflowNode) (o : LayoutOrientation) : LaneState :=
  (layoutOrder ns).foldl (laneStep o (computeRanks ns)) ⟨[], []⟩

/-- `Array.from(nodeMap.values())`. -/
def renderedNodes (ns : List WorkflowNode) (o : LayoutOrientation) :
    List RenderedNode :=
  (laneFinal ns o).nodeMap.map Prod.snd

/-! ### Edges (lines 148-169) -/

def edgeColor (childStatus : NodeStatus) (parentColor : String) : String :=
  if childStatus = NodeStatus.abandoned then "#94a3b8"
  else if childStatus = NodeStatus.standby then "#fbbf24"
  else parentColor

/-- The edges pushed while processing one rendered node's `parentIds`. -/
def edgesOf (nodeMap : List (String × RenderedNode)) (node : RenderedNode) :
    List RenderedEdge :=
  node.parentIds.filterMap (fun pid =>
    match mapFind? nodeMap pid with
    | none => none
    | some parent =>
      some { id := parent.id ++ "-" ++ node.id,
             sourceX := parent.x, sourceY := parent.y,
             targetX := node.x, targetY := node.y,
             color := edgeColor node.status parent.color,
             status := node.status })

def renderedEdges (ns : List WorkflowNode) (o : LayoutOrientation) :
    List RenderedEdge :=
  (renderedNodes ns o).flatMap (edgesOf (laneFinal ns o).nodeMap)

/-! ### Canvas bounds (lines 171-180) -/

/-- `Math.max(...)` over a spread list; `none` models `-Infinity`. -/
def maxOfList (l : List Int) : Option Int :=
  l.foldl (fun acc x =>
    match acc with
    | none => some x
    | some m => some (max m x)) none

structure LayoutResult where
  nodes : List RenderedNode
  edges : List RenderedEdge
  width : Int
  height : Int
deriving DecidableEq, Repr

/-- The complete `calculateLayout` engine. -/
def calculateLayout (ns : List WorkflowNode) (o : LayoutOrientation)
    (viewportW viewportH : Int) : LayoutResult :=
  let rnodes := renderedNodes ns o
  let extentW : Int := if o = LayoutOrientation.vertical then NODE_WIDTH else H_NODE_WIDTH
  let extentH : Int := if o = LayoutOrientation.vertical then NODE_HEIGHT else H_NODE_HEIGHT
  let width :=
    match maxOfList (rnodes.map (fun n => n.x)) with
    | none => viewportW
    | some m => max (m + extentW + 100) viewportW
  let height :=
    match maxOfList (rnodes.map (fun n => n.y)) with
    | none => viewportH
    | some m => max (m + extentH + 100) viewportH
  { nodes := rnodes, edges := renderedEdges ns o, width := width, height := height }

/-! ### Auxiliary definitions used by the verification -/

/-- Fuel-based canonical topological depth of an id: `0` for roots and ids not
present, `1 + max` over the parents otherwise.  On acyclic inputs with enough
fuel this is the true depth (fuel-independence is proved below). -/
def depthF (ns : List WorkflowNode) : Nat → String → Nat
  | 0, _ => 0
  | fuel + 1, i =>
    match ns.find? (fun n => n.id == i) with
    | none => 0
    | some v =>
      if v.parentIds.isEmpty then 0
      else (v.parentIds.map (depthF ns fuel)).foldl Nat.max 0 + 1

def depth (ns : List WorkflowNode) (i : String) : Nat :=
  depthF ns (ns.length + 1) i

/-- Acyclicity of the parent relation on ids, stated as the existence of a
strict height witness bounded by the node count.  For a finite node list this
is equivalent to the parent relation being acyclic: a finite acyclic relation
admits its canonical height as such a witness, with values below the number of
distinct ids. -/
def AcyclicNodes (ns : List WorkflowNode) : Prop :=
  ∃ D : String → Nat,
    (∀ v ∈ ns, ∀ p ∈ v.parentIds, D p < D v.id) ∧ ∀ v ∈ ns, D v.id ≤ ns.length

/-- Pure iteration of the rank pass, without the early fixpoint exit; the
source loop computes the same map (proved below). -/
def iterRank (sorted : List WorkflowNode) : Nat → List (String × Nat) →
    List (String × Nat)
  | 0, m => m
  | k + 1, m => iterRank sorted k (rankPass sorted m).1

/-- Lane-pass state after the first `m` nodes of the processing order. -/
def laneStateAfter (ns : List WorkflowNode) (o : LayoutOrientation) (m : Nat) :
    LaneState :=
  ((layoutOrder ns).take m).foldl (laneStep o (computeRanks ns)) ⟨[], []⟩

/-- The invariant of the lane-assignment pass: the set of claimed lane indices
is exactly `{0, ..., alloc.length - 1}`, and every stored node's lane is below
that bound. -/
def LaneInv (st : LaneState) : Prop :=
  st.alloc.map Prod.fst = List.range st.alloc.length ∧
  ∀ p ∈ st.nodeMap, p.2.lane < st.alloc.length

/-- The coordinate contract of a rendered node: its id has an assigned rank and
the x/y values follow the orientation-specific formulas of the source. -/
def CoordProp (o : LayoutOrientation) (ranks : List (String × Nat))
    (r : RenderedNode) : Prop :=
  ∃ rk, mapFind? ranks r.id = some rk ∧
    (o = LayoutOrientation.vertical →
      r.x = (r.lane : Int) * (NODE_WIDTH + GAP_X) + 50 ∧
      r.y = (rk : Int) * (NODE_HEIGHT + GAP_Y) + 50) ∧
    (o = LayoutOrientation.horizontal →
      r.x = (rk : Int) * H_GAP_X + 50 ∧
      r.y = (r.lane : Int) * (H_NODE_HEIGHT + H_GAP_Y) + 50)

/-- Two input nodes that agree on every field the layout reads (only `status`
may differ). -/
def sameExceptStatus (a b : WorkflowNode) : Prop :=
  a.id = b.id ∧ a.date = b.date ∧ a.parentIds = b.parentIds

/-- Geometric agreement of rendered nodes: everything except `status`/`color`. -/
def geomEq (a b : RenderedNode) : Prop :=
  a.id = b.id ∧ a.date = b.date ∧ a.parentIds = b.parentIds ∧
    a.x = b.x ∧ a.y = b.y ∧ a.lane = b.lane

/-! ### Concrete inputs used by witnesses and counterexamples -/

def nRoot : WorkflowNode := ⟨"root", 0, NodeStatus.active, []⟩
def nChild : WorkflowNode := ⟨"child", 10, NodeStatus.completed, ["root"]⟩
def nDangling : WorkflowNode := ⟨"dangling", 20, NodeStatus.active, ["ghost"]⟩
def nCycA : WorkflowNode := ⟨"cycA", 0, NodeStatus.active, ["cycB"]⟩
def nCycB : WorkflowNode := ⟨"cycB", 1, NodeStatus.active, ["cycA"]⟩
def nDupRoot : WorkflowNode := ⟨"dup", 0, NodeStatus.active, []⟩
def nDupChild : WorkflowNode := ⟨"dup", 2, NodeStatus.active, ["base"]⟩
def nBase : WorkflowNode := ⟨"base", 1, NodeStatus.active, []⟩
def nRootStandby : WorkflowNode := ⟨"root", 0, NodeStatus.standby, []⟩
def nChildAbandoned : WorkflowNode := ⟨"child", 10, NodeStatus.abandoned, ["root"]⟩
def rRoot : RenderedNode := ⟨"root", 0, NodeStatus.active, [], 50, 50, 0, "#3b82f6"⟩

/-! ### Association-map lemmas -/

theorem mapFind?_mapSet_self {κ α : Type} [DecidableEq κ] (m : List (κ × α))
    (k : κ) (v : α) : mapFind? (mapSet m k v) k = some v := by
  induction m with
  | nil => simp [mapSet, mapFind?]
  | cons p rest ih =>
    obtain ⟨a, b⟩ := p
    by_cases h : a = k
    · subst h
      simp [mapSet, mapFind?]
    · simp [mapSet, mapFind?, h, ih]

theorem mapFind?_mapSet_ne {κ α : Type} [DecidableEq κ] (m : List (κ × α))
    (k q : κ) (v : α) (h : q ≠ k) :
    mapFind? (mapSet m k v) q = mapFind? m q := by
  induction m with
  | nil => simp [mapSet, mapFind?, Ne.symm h]
  | cons p rest ih =>
    obtain ⟨a, b⟩ := p
    by_cases hk : a = k
    · subst hk
      simp [mapSet, mapFind?, Ne.symm h]
    · by_cases hq : a = q
      · subst hq
        simp [mapSet, mapFind?, hk]
      · simp [mapSet, mapFind?, hk, hq, ih]

theorem mapFind?_isSome_iff_mem {κ α : Type} [DecidableEq κ]
    (m : List (κ × α)) (k : κ) :
    (mapFind? m k).isSome ↔ k ∈ m.map Prod.fst := by
  induction m with
  | nil => simp [mapFind?]
  | cons p rest ih =>
    obtain ⟨a, b⟩ := p
    by_cases h : a = k
    · subst h
      simp [mapFind?]
    · simp [mapFind?, h, ih, Ne.symm h]

theorem mem_of_mapFind?_eq_some {κ α : Type} [DecidableEq κ]
    {m : List (κ × α)} {k : κ} {v : α} (h : mapFind? m k = some v) :
    (k, v) ∈ m := by
  induction m with
  | nil => simp [mapFind?] at h
  | cons p rest ih =>
    obtain ⟨a, b⟩ := p
    by_cases hk : a = k
    · subst hk
      simp [mapFind?] at h
      simp [h]
    · simp [mapFind?, hk] at h
      exact List.mem_cons_of_mem _ (ih h)

theorem mapSet_fst_of_isSome {κ α : Type} [DecidableEq κ] (m : List (κ × α))
    (k : κ) (v : α) (h : (mapFind? m k).isSome) :
    (mapSet m k v).map Prod.fst = m.map Prod.fst := by
  induction m with
  | nil => simp [mapFind?] at h
  | cons p rest ih =>
    obtain ⟨a, b⟩ := p
    by_cases hk : a = k
    · subst hk
      simp [mapSet]
    · simp only [mapFind?, if_neg hk] at h
      simp [mapSet, hk, ih h]

theorem mapSet_fst_of_none {κ α : Type} [DecidableEq κ] (m : List (κ × α))
    (k : κ) (v : α) (h : mapFind? m k = none) :
    (mapSet m k v).map Prod.fst = m.map Prod.fst ++ [k] := by
  induction m with
  | nil => simp [mapSet]
  | cons p rest ih =>
    obtain ⟨a, b⟩ := p
    by_cases hk : a = k
    · subst hk
      simp [mapFind?] at h
    · simp only [mapFind?, if_neg hk] at h
      simp [mapSet, hk, ih h]

theorem mapSet_length_of_isSome {κ α : Type} [DecidableEq κ] (m : List (κ × α))
    (k : κ) (v : α) (h : (mapFind? m k).isSome) :
    (mapSet m k v).length = m.length := by
  have := congrArg List.length (mapSet_fst_of_isSome m k v h)
  simpa using this

theorem mapSet_length_of_none {κ α : Type} [DecidableEq κ] (m : List (κ × α))
    (k : κ) (v : α) (h : mapFind? m k = none) :
    (mapSet m k v).length = m.length + 1 := by
  have := congrArg List.length (mapSet_fst_of_none m k v h)
  simpa using this

/-! ### Generic fold lemmas -/

theorem foldlPreserves {σ α : Type} (f : σ → α → σ) (I : σ → Prop)
    (l : List α) : ∀ (s : σ), (∀ s' a, a ∈ l → I s' → I (f s' a)) → I s →
      I (l.foldl f s) := by
  induction l with
  | nil => intro s _ hs; simpa using hs
  | cons a l ih =>
    intro s h hs
    simp only [List.foldl_cons]
    exact ih (f s a) (fun s' b hb hI => h s' b (List.mem_cons_of_mem a hb) hI)
      (h s a (List.mem_cons_self a l) hs)

theorem foldlRel {σ τ α β : Type} (R : α → β → Prop) (S : σ → τ → Prop)
    (f : σ → α → σ) (g : τ → β → τ)
    (hstep : ∀ s t a b, R a b → S s t → S (f s a) (g t b)) :
    ∀ {l₁ : List α} {l₂ : List β}, List.Forall₂ R l₁ l₂ →
      ∀ {s t}, S s t → S (l₁.foldl f s) (l₂.foldl g t) := by
  intro l₁ l₂ hF
  induction hF with
  | nil => intro s t h; simpa using h
  | @cons a b l₁ l₂ hab _ ih =>
    intro s t hst
    simp only [List.foldl_cons]
    exact ih (hstep s t a b hab hst)

/-! ### Stable-sort lemmas -/

theorem insertOrd_perm {α : Type} (le : α → α → Bool) (x : α) (l : List α) :
    List.Perm (insertOrd le x l) (x :: l) := by
  induction l with
  | nil => simp [insertOrd]
  | cons y ys ih =>
    by_cases h : le x y
    · simp [insertOrd, h]
    · simp only [insertOrd, h, Bool.false_eq_true, if_false]
      exact (ih.cons y).trans (List.Perm.swap x y ys)

theorem stableSort_perm {α : Type} (le : α → α → Bool) (l : List α) :
    List.Perm (stableSort le l) l := by
  induction l with
  | nil => simp [stableSort]
  | cons x xs ih =>
    have : stableSort le (x :: xs) = insertOrd le x (stableSort le xs) := rfl
    rw [this]
    exact (insertOrd_perm le x _).trans (ih.cons x)

theorem insertOrd_forall2 {α β : Type} (R : α → β → Prop)
    (le₁ : α → α → Bool) (le₂ : β → β → Bool)
    (hle : ∀ a b a' b', R a a' → R b b' → le₁ a b = le₂ a' b')
    {x : α} {y : β} (hxy : R x y) :
    ∀ {l₁ : List α} {l₂ : List β}, List.Forall₂ R l₁ l₂ →
      List.Forall₂ R (insertOrd le₁ x l₁) (insertOrd le₂ y l₂) := by
  intro l₁ l₂ hF
  induction hF with
  | nil => simpa [insertOrd] using List.Forall₂.cons hxy List.Forall₂.nil
  | @cons a b l₁ l₂ hab hF ih =>
    have hcmp : le₁ x a = le₂ y b := hle x a y b hxy hab
    by_cases h : le₁ x a
    · have h' : le₂ y b := by rw [← hcmp]; exact h
      simpa [insertOrd, h, h'] using
        List.Forall₂.cons hxy (List.Forall₂.cons hab hF)
    · have h' : ¬ le₂ y b := by rw [← hcmp]; exact h
      simpa [insertOrd, h, h'] using List.Forall₂.cons hab ih

theorem stableSort_forall2 {α β : Type} (R : α → β → Prop)
    (le₁ : α → α → Bool) (le₂ : β → β → Bool)
    (hle : ∀ a b a' b', R a a' → R b b' → le₁ a b = le₂ a' b') :
    ∀ {l₁ : List α} {l₂ : List β}, List.Forall₂ R l₁ l₂ →
      List.Forall₂ R (stableSort le₁ l₁) (stableSort le₂ l₂) := by
  intro l₁ l₂ hF
  induction hF with
  | nil => simp [stableSort]
  | @cons a b l₁ l₂ hab hF ih =>
    have e₁ : stableSort le₁ (a :: l₁) = insertOrd le₁ a (stableSort le₁ l₁) := rfl
    have e₂ : stableSort le₂ (b :: l₂) = insertOrd le₂ b (stableSort le₂ l₂) := rfl
    rw [e₁, e₂]
    exact insertOrd_forall2 R le₁ le₂ hle hab ih

/-! ### Free-lane scan -/

theorem findFreeLaneAux_spec (alloc : List (Nat × String)) :
    ∀ (fuel l : Nat), (∃ f, l ≤ f ∧ f ≤ l + fuel ∧ mapFind? alloc f = none) →
      mapFind? alloc (findFreeLaneAux alloc fuel l) = none ∧
      l ≤ findFreeLaneAux alloc fuel l ∧
      ∀ j, l ≤ j → j < findFreeLaneAux alloc fuel l →
        (mapFind? alloc j).isSome := by
  intro fuel
  induction fuel with
  | zero =>
    intro l hex
    obtain ⟨f, hlf, hfl, hfree⟩ := hex
    have : f = l := Nat.le_antisymm (by simpa using hfl) hlf
    subst this
    exact ⟨hfree, Nat.le_refl _, fun j h₁ h₂ => absurd (Nat.lt_of_le_of_lt h₁ h₂) (Nat.lt_irrefl _)⟩
  | succ fuel ih =>
    intro l hex
    by_cases hocc : (mapFind? alloc l).isSome
    · have hrw : findFreeLaneAux alloc (fuel + 1) l = findFreeLaneAux alloc fuel (l + 1) := by
        simp [findFreeLaneAux, hocc]
      obtain ⟨f, hlf, hfl, hfree⟩ := hex
      have hne : f ≠ l := by
        intro h
        rw [h] at hfree
        simp [hfree] at hocc
      have hex' : ∃ f, l + 1 ≤ f ∧ f ≤ (l + 1) + fuel ∧ mapFind? alloc f = none := by
        refine ⟨f, ?_, ?_, hfree⟩
        · exact Nat.succ_le_of_lt (Nat.lt_of_le_of_ne hlf (Ne.symm hne))
        · omega
      obtain ⟨h₁, h₂, h₃⟩ := ih (l + 1) hex'
      rw [hrw]
      refine ⟨h₁, Nat.le_trans (Nat.le_succ l) h₂, ?_⟩
      intro j hj₁ hj₂
      by_cases hjl : j = l
      · subst hjl; exact hocc
      · exact h₃ j (Nat.succ_le_of_lt (Nat.lt_of_le_of_ne hj₁ (Ne.symm hjl))) hj₂
    · have hrw : findFreeLaneAux alloc (fuel + 1) l = l := by
        simp [findFreeLaneAux, hocc]
      rw [hrw]
      refine ⟨?_, Nat.le_refl _, fun j h₁ h₂ => absurd (Nat.lt_of_le_of_lt h₁ h₂) (Nat.lt_irrefl _)⟩
      cases h : mapFind? alloc l with
      | none => rfl
      | some v => rw [h] at hocc; simp at hocc

theorem exists_free_le_length (alloc : List (Nat × String)) :
    ∃ f, f ≤ alloc.length ∧ mapFind? alloc f = none := by
  by_contra hcon
  push_neg at hcon
  have hsub : List.range (alloc.length + 1) ⊆ alloc.map Prod.fst := by
    intro j hj
    have hj' : j < alloc.length + 1 := List.mem_range.mp hj
    have := hcon j (Nat.lt_succ_iff.mp hj')
    have hsome : (mapFind? alloc j).isSome := Option.ne_none_iff_isSome.mp this
    exact (mapFind?_isSome_iff_mem alloc j).mp hsome
  have hle := (List.subperm_of_subset (List.nodup_range _) hsub).length_le
  simp at hle

theorem findFreeLane_free (alloc : List (Nat × String)) :
    mapFind? alloc (findFreeLane alloc) = none := by
  obtain ⟨f, hf, hfree⟩ := exists_free_le_length alloc
  exact (findFreeLaneAux_spec alloc alloc.length 0
    ⟨f, Nat.zero_le f, by simpa using hf, hfree⟩).1

theorem findFreeLane_min (alloc : List (Nat × String)) :
    ∀ j, j < findFreeLane alloc → (mapFind? alloc j).isSome := by
  obtain ⟨f, hf, hfree⟩ := exists_free_le_length alloc
  intro j hj
  exact (findFreeLaneAux_spec alloc alloc.length 0
    ⟨f, Nat.zero_le f, by simpa using hf, hfree⟩).2.2 j (Nat.zero_le j) hj

/-! ### Claim theorems (first group) -/

/-- C9: on an empty input node list, for either orientation, `calculateLayout`
returns empty node and edge lists and a canvas whose width and height are
exactly the viewport dimensions; being a total function it raises no error. -/
theorem c9_empty_input (o : LayoutOrientation) (vw vh : Int) :
    calculateLayout [] o vw vh =
      { nodes := [], edges := [], width := vw, height := vh } := by
  cases o <;> rfl

/-- C3: at any point of the lane-assignment pass, if the node being processed
has a first listed parent that is present in `nodeMap` and the lane-claim map
still records that parent as the claimant of its lane, then the node is stored
with exactly its parent's lane. -/
theorem c3_lane_inheritance (o : LayoutOrientation)
    (ranks : List (String × Nat)) (st : LaneState) (node : WorkflowNode)
    (pid : String) (rest : List String) (P : RenderedNode)
    (hpids : node.parentIds = pid :: rest)
    (hproc : mapFind? st.nodeMap pid = some P)
    (hclaim : mapFind? st.alloc P.lane = some P.id) :
    ∃ r, mapFind? (laneStep o ranks st node).nodeMap node.id = some r ∧
      r.lane = P.lane := by
  refine ⟨_, mapFind?_mapSet_self _ _ _, ?_⟩
  show assignedLaneOf st node = P.lane
  simp [assignedLaneOf, inheritedLane, hpids, hproc, hclaim]

/-- Witness for C3 at a concrete state: a child whose first parent `root` still
claims lane 0 inherits lane 0. -/
theorem c3_lane_inheritance_witness :
    ∃ r, mapFind? (laneStep LayoutOrientation.vertical [("root", 0)]
        ⟨[("root", rRoot)], [(0, "root")]⟩ nChild).nodeMap nChild.id = some r ∧
      r.lane = rRoot.lane :=
  c3_lane_inheritance LayoutOrientation.vertical [("root", 0)]
    ⟨[("root", rRoot)], [(0, "root")]⟩ nChild "root" [] rRoot
    (by decide) (by decide) (by decide)

/-- C4: at any point of the lane-assignment pass, a node for which lane
inheritance does not apply is assigned the smallest lane index not currently
claimed by any node (scanning upward from 0, so a lane no longer needed would
be reused before a new index is opened), and is then recorded as that lane's
claimant. -/
theorem c4_lane_fallback (o : LayoutOrientation)
    (ranks : List (String × Nat)) (st : LaneState) (node : WorkflowNode)
    (hno : inheritedLane st node = none) :
    ∃ r, mapFind? (laneStep o ranks st node).nodeMap node.id = some r ∧
      r.lane = findFreeLane st.alloc ∧
      mapFind? st.alloc r.lane = none ∧
      (∀ j, j < r.lane → (mapFind? st.alloc j).isSome) ∧
      mapFind? (laneStep o ranks st node).alloc r.lane = some node.id := by
  have hassigned : (renderedOf o ranks st node).lane = findFreeLane st.alloc := by
    show assignedLaneOf st node = findFreeLane st.alloc
    simp [assignedLaneOf, hno]
  refine ⟨renderedOf o ranks st node, mapFind?_mapSet_self _ _ _, hassigned,
    ?_, ?_, ?_⟩
  · rw [hassigned]
    exact findFreeLane_free st.alloc
  · rw [hassigned]
    exact findFreeLane_min st.alloc
  · show mapFind? (mapSet st.alloc (assignedLaneOf st node) node.id)
      (assignedLaneOf st node) = some node.id
    exact mapFind?_mapSet_self _ _ _

/-- Witness for C4 at a concrete state: with lanes 0 and 1 claimed, a root node
(no inheritance possible) gets lane 2 and becomes its claimant. -/
theorem c4_lane_fallback_witness :
    ∃ r, mapFind? (laneStep LayoutOrientation.vertical []
        ⟨[], [(0, "a"), (1, "b")]⟩ nRoot).nodeMap nRoot.id = some r ∧
      r.lane = findFreeLane [(0, "a"), (1, "b")] ∧
      mapFind? [(0, "a"), (1, "b")] r.lane = none ∧
      (∀ j, j < r.lane → (mapFind? [(0, "a"), (1, "b")] j).isSome) ∧
      mapFind? (laneStep LayoutOrientation.vertical []
        ⟨[], [(0, "a"), (1, "b")]⟩ nRoot).alloc r.lane = some nRoot.id :=
  c4_lane_fallback LayoutOrientation.vertical []
    ⟨[], [(0, "a"), (1, "b")]⟩ nRoot (by decide)

/-! ### Further map lemmas -/

theorem mapFind?_mapSet_isSome_of {κ α : Type} [DecidableEq κ]
    {m : List (κ × α)} {q : κ} (k : κ) (v : α)
    (h : (mapFind? m q).isSome) : (mapFind? (mapSet m k v) q).isSome := by
  by_cases hq : q = k
  · subst hq
    simp [mapFind?_mapSet_self]
  · rw [mapFind?_mapSet_ne m k q v hq]
    exact h

theorem mem_mapSet {κ α : Type} [DecidableEq κ]
    {m : List (κ × α)} {k : κ} {v : α} {p : κ × α}
    (h : p ∈ mapSet m k v) : p = (k, v) ∨ p ∈ m := by
  induction m with
  | nil => simpa [mapSet] using h
  | cons q rest ih =>
    obtain ⟨a, b⟩ := q
    by_cases hk : a = k
    · subst hk
      simp only [mapSet, if_pos rfl] at h
      rcases List.mem_cons.mp h with h | h
      · exact Or.inl h
      · exact Or.inr (List.mem_cons_of_mem _ h)
    · simp only [mapSet, if_neg hk] at h
      rcases List.mem_cons.mp h with h | h
      · exact Or.inr (h ▸ List.mem_cons_self _ _)
      · rcases ih h with h | h
        · exact Or.inl h
        · exact Or.inr (List.mem_cons_of_mem _ h)

/-! ### C2: the rank loop is bounded and the fallback completes the rank map -/

theorem rankLoop_count_le (sorted : List WorkflowNode) :
    ∀ (fuel : Nat) (m : List (String × Nat)),
      (rankLoop sorted fuel m).2 ≤ fuel := by
  intro fuel
  induction fuel with
  | zero => intro m; simp [rankLoop]
  | succ fuel ih =>
    intro m
    simp only [rankLoop]
    by_cases h : (rankPass sorted m).2
    · simp only [h, if_true]
      exact Nat.succ_le_succ (ih _)
    · simp only [h, if_false]
      exact Nat.succ_le_succ (Nat.zero_le _)

theorem fallback_foldl_preserves (l : List (Nat × WorkflowNode))
    (i : String) (m : List (String × Nat)) (h : (mapFind? m i).isSome) :
    (mapFind? (l.foldl fallbackStep m) i).isSome := by
  refine foldlPreserves fallbackStep (fun m' => (mapFind? m' i).isSome) l m
    (fun m' p _ hI => ?_) h
  unfold fallbackStep
  by_cases hs : (mapFind? m' p.2.id).isSome
  · simpa [hs] using hI
  · simp only [hs, if_false]
    exact mapFind?_mapSet_isSome_of _ _ hI

theorem fallback_foldl_complete (v : WorkflowNode) :
    ∀ (l : List WorkflowNode) (start : Nat) (m : List (String × Nat)),
      v ∈ l →
      (mapFind? ((List.enumFrom start l).foldl fallbackStep m) v.id).isSome := by
  intro l
  induction l with
  | nil => intro start m h; simp at h
  | cons n rest ih =>
    intro start m hmem
    simp only [List.enumFrom, List.foldl_cons]
    rcases List.mem_cons.mp hmem with h | h
    · subst h
      apply fallback_foldl_preserves
      unfold fallbackStep
      by_cases hs : (mapFind? m v.id).isSome
      · simp [hs]
      · simp only [hs, if_false]
        simp [mapFind?_mapSet_self]
    · exact ih (start + 1) _ h

theorem applyFallback_complete (sorted : List WorkflowNode)
    (m : List (String × Nat)) (v : WorkflowNode) (h : v ∈ sorted) :
    (mapFind? (applyFallback sorted m) v.id).isSome := by
  unfold applyFallback
  have : sorted.enum = List.enumFrom 0 sorted := rfl
  rw [this]
  exact fallback_foldl_complete v sorted 0 m h

/-- After the fallback step, every input node's id has a rank. -/
theorem computeRanks_complete (ns : List WorkflowNode) (v : WorkflowNode)
    (h : v ∈ ns) : (mapFind? (computeRanks ns) v.id).isSome := by
  have hmem : v ∈ sortedByDate ns := (stableSort_perm dateLe ns).mem_iff.mpr h
  exact applyFallback_complete _ _ v hmem

/-- C2: on every input node list — including malformed ones such as a two-node
mutual-parent cycle — the rank-assignment loop executes at most `N + 2` passes
(`N` = node count; the embedding is total, so it neither throws nor hangs),
and after the fallback step every input node's id has an assigned rank. -/
theorem c2_rank_termination (ns : List WorkflowNode) :
    rankPassCount ns ≤ ns.length + 2 ∧
    ∀ v ∈ ns, (mapFind? (computeRanks ns) v.id).isSome := by
  constructor
  · exact rankLoop_count_le _ _ _
  · intro v hv
    exact computeRanks_complete ns v hv

/-- Witness for C2 at the two-node mutual-parent cycle: both nodes end up with
a rank. -/
theorem c2_rank_termination_witness :
    (mapFind? (computeRanks [nCycA, nCycB]) nCycA.id).isSome ∧
    (mapFind? (computeRanks [nCycA, nCycB]) nCycB.id).isSome :=
  ⟨(c2_rank_termination [nCycA, nCycB]).2 nCycA (by decide),
   (c2_rank_termination [nCycA, nCycB]).2 nCycB (by decide)⟩

/-! ### C10: the claimed lanes always form a contiguous range -/

theorem findFreeLane_of_range (alloc : List (Nat × String))
    (h : alloc.map Prod.fst = List.range alloc.length) :
    findFreeLane alloc = alloc.length := by
  have hfree := findFreeLane_free alloc
  have hmin := findFreeLane_min alloc
  by_cases hlt : findFreeLane alloc < alloc.length
  · have hs : (mapFind? alloc (findFreeLane alloc)).isSome := by
      rw [mapFind?_isSome_iff_mem, h]
      exact List.mem_range.mpr hlt
    rw [hfree] at hs
    simp at hs
  · by_cases hgt : alloc.length < findFreeLane alloc
    · have hs := hmin alloc.length hgt
      have : alloc.length ∈ List.range alloc.length := by
        rw [← h]
        exact (mapFind?_isSome_iff_mem _ _).mp hs
      exact absurd (List.mem_range.mp this) (Nat.lt_irrefl _)
    · omega

theorem assignedLaneOf_lt (st : LaneState) (node : WorkflowNode)
    (h : st.alloc.map Prod.fst = List.range st.alloc.length) :
    assignedLaneOf st node ≤ st.alloc.length ∧
    (assignedLaneOf st node = st.alloc.length →
      mapFind? st.alloc (assignedLaneOf st node) = none) := by
  unfold assignedLaneOf
  cases hil : inheritedLane st node with
  | some l =>
    have hs : (mapFind? st.alloc l).isSome := by
      unfold inheritedLane at hil
      cases hp : node.parentIds with
      | nil => rw [hp] at hil; simp at hil
      | cons pid rest =>
        rw [hp] at hil
        simp only at hil
        cases hfp : mapFind? st.nodeMap pid with
        | none => rw [hfp] at hil; simp at hil
        | some fp =>
          rw [hfp] at hil
          simp only at hil
          by_cases hc : mapFind? st.alloc fp.lane = some fp.id
          · simp only [hc, if_pos rfl] at hil
            cases hil
            simp [hc]
          · simp [hc] at hil
    have hmem : l ∈ List.range st.alloc.length := by
      rw [← h]
      exact (mapFind?_isSome_iff_mem _ _).mp hs
    have hlt := List.mem_range.mp hmem
    exact ⟨Nat.le_of_lt hlt, fun he => absurd (he ▸ hlt) (Nat.lt_irrefl _)⟩
  | none =>
    rw [findFreeLane_of_range st.alloc h]
    refine ⟨Nat.le_refl _, fun _ => ?_⟩
    cases hc : mapFind? st.alloc st.alloc.length with
    | none => rfl
    | some w =>
      have : st.alloc.length ∈ List.range st.alloc.length := by
        rw [← h]
        exact (mapFind?_isSome_iff_mem _ _).mp (by simp [hc])
      exact absurd (List.mem_range.mp this) (Nat.lt_irrefl _)

theorem laneStep_inv (o : LayoutOrientation) (ranks : List (String × Nat))
    (st : LaneState) (node : WorkflowNode) (h : LaneInv st) :
    LaneInv (laneStep o ranks st node) ∧
    st.alloc.length ≤ (laneStep o ranks st node).alloc.length ∧
    (laneStep o ranks st node).alloc.length ≤ st.alloc.length + 1 := by
  obtain ⟨hkeys, hvals⟩ := h
  obtain ⟨hle, hnone⟩ := assignedLaneOf_lt st node hkeys
  have halloc : (laneStep o ranks st node).alloc =
      mapSet st.alloc (assignedLaneOf st node) node.id := rfl
  have hnm : (laneStep o ranks st node).nodeMap =
      mapSet st.nodeMap node.id (renderedOf o ranks st node) := rfl
  by_cases heq : assignedLaneOf st node = st.alloc.length
  · have hfree := hnone heq
    have hlen' : (laneStep o ranks st node).alloc.length = st.alloc.length + 1 := by
      rw [halloc]
      exact mapSet_length_of_none _ _ _ hfree
    have hkeys2 : (laneStep o ranks st node).alloc.map Prod.fst =
        List.range (st.alloc.length + 1) := by
      rw [halloc, mapSet_fst_of_none _ _ _ hfree, hkeys, heq, List.range_succ]
    refine ⟨⟨by rw [hkeys2, hlen'], ?_⟩, by rw [hlen']; exact Nat.le_succ _,
      by rw [hlen']⟩
    intro p hp
    rw [hlen']
    rw [hnm] at hp
    rcases mem_mapSet hp with hpe | hpm
    · have hpl : p.2.lane = assignedLaneOf st node := by subst hpe; rfl
      rw [hpl, heq]
      exact Nat.lt_succ_self _
    · exact Nat.lt_succ_of_lt (hvals p hpm)
  · have hlt : assignedLaneOf st node < st.alloc.length :=
      Nat.lt_of_le_of_ne hle heq
    have hs : (mapFind? st.alloc (assignedLaneOf st node)).isSome := by
      rw [mapFind?_isSome_iff_mem, hkeys]
      exact List.mem_range.mpr hlt
    have hlen' : (laneStep o ranks st node).alloc.length = st.alloc.length := by
      rw [halloc]
      exact mapSet_length_of_isSome _ _ _ hs
    have hkeys2 : (laneStep o ranks st node).alloc.map Prod.fst =
        List.range st.alloc.length := by
      rw [halloc, mapSet_fst_of_isSome _ _ _ hs, hkeys]
    refine ⟨⟨by rw [hkeys2, hlen'], ?_⟩, by rw [hlen'], by rw [hlen']; exact Nat.le_succ _⟩
    intro p hp
    rw [hlen']
    rw [hnm] at hp
    rcases mem_mapSet hp with hpe | hpm
    · have hpl : p.2.lane = assignedLaneOf st node := by subst hpe; rfl
      rw [hpl]
      exact hlt
    · exact hvals p hpm

theorem laneFold_inv (o : LayoutOrientation) (ranks : List (String × Nat))
    (l : List WorkflowNode) (st : LaneState) (h : LaneInv st) :
    LaneInv (l.foldl (laneStep o ranks) st) :=
  foldlPreserves (laneStep o ranks) LaneInv l st
    (fun s a _ hI => (laneStep_inv o ranks s a hI).1) h

theorem laneFold_length_le (o : LayoutOrientation) (ranks : List (String × Nat)) :
    ∀ (l : List WorkflowNode) (st : LaneState), LaneInv st →
      (l.foldl (laneStep o ranks) st).alloc.length ≤ st.alloc.length + l.length := by
  intro l
  induction l with
  | nil => intro st _; simp
  | cons n rest ih =>
    intro st h
    simp only [List.foldl_cons, List.length_cons]
    have hstep := laneStep_inv o ranks st n h
    calc (rest.foldl (laneStep o ranks) (laneStep o ranks st n)).alloc.length
        ≤ (laneStep o ranks st n).alloc.length + rest.length := ih _ hstep.1
      _ ≤ st.alloc.length + 1 + rest.length :=
          Nat.add_le_add_right hstep.2.2 _
      _ = st.alloc.length + (rest.length + 1) := by omega

theorem laneInv_init : LaneInv ⟨[], []⟩ :=
  ⟨rfl, fun p hp => absurd hp (List.not_mem_nil p)⟩

theorem laneStateAfter_inv (ns : List WorkflowNode) (o : LayoutOrientation)
    (m : Nat) : LaneInv (laneStateAfter ns o m) :=
  laneFold_inv o (computeRanks ns) _ _ laneInv_init

theorem layoutOrder_length (ns : List WorkflowNode) :
    (layoutOrder ns).length = ns.length := by
  unfold layoutOrder
  calc (stableSort (laneOrderLe (computeRanks ns)) (sortedByDate ns)).length
      = (sortedByDate ns).length := (stableSort_perm _ _).length_eq
    _ = ns.length := (stableSort_perm _ _).length_eq

theorem laneFinal_eq_after (ns : List WorkflowNode) (o : LayoutOrientation) :
    laneFinal ns o = laneStateAfter ns o (layoutOrder ns).length := by
  unfold laneFinal laneStateAfter
  rw [List.take_length]

/-- C10: during the lane-assignment pass a claimed lane is never un-claimed
(after each processed prefix the claimed lane indices are exactly the
contiguous range `{0, ..., k-1}` for the current claim-count `k`, and `k` never
decreases), and consequently every rendered node's lane is a natural number
strictly below the number of input nodes. -/
theorem c10_lane_range_invariant (ns : List WorkflowNode)
    (o : LayoutOrientation) (vw vh : Int) :
    (∀ m, (laneStateAfter ns o m).alloc.map Prod.fst =
        List.range (laneStateAfter ns o m).alloc.length) ∧
    (∀ m, (laneStateAfter ns o m).alloc.length ≤
        (laneStateAfter ns o (m + 1)).alloc.length) ∧
    ∀ v ∈ (calculateLayout ns o vw vh).nodes, v.lane < ns.length := by
  refine ⟨fun m => (laneStateAfter_inv ns o m).1, fun m => ?_, fun v hv => ?_⟩
  · unfold laneStateAfter
    rw [List.take_succ, List.foldl_append]
    cases hg : (layoutOrder ns)[m]? with
    | none => simp
    | some n =>
      simp only [Option.toList, List.foldl_cons, List.foldl_nil]
      exact (laneStep_inv o (computeRanks ns) _ n (laneStateAfter_inv ns o m)).2.1
  · have hv' : v ∈ (laneFinal ns o).nodeMap.map Prod.snd := hv
    obtain ⟨p, hp, hpe⟩ := List.mem_map.mp hv'
    have hinv : LaneInv (laneFinal ns o) :=
      laneFold_inv o (computeRanks ns) _ _ laneInv_init
    have hlane := hinv.2 p hp
    have hlen : (laneFinal ns o).alloc.length ≤ ns.length := by
      have := laneFold_length_le o (computeRanks ns) (layoutOrder ns)
        ⟨[], []⟩ laneInv_init
      simpa [layoutOrder_length] using this
    rw [hpe] at hlane
    exact Nat.lt_of_lt_of_le hlane hlen

/-- Witness for C10 on a concrete input: the single rendered node of a
one-node roadmap has lane below the input length. -/
theorem c10_lane_range_invariant_witness :
    ∀ v ∈ (calculateLayout [nRoot] LayoutOrientation.vertical 800 600).nodes,
      v.lane < [nRoot].length :=
  (c10_lane_range_invariant [nRoot] LayoutOrientation.vertical 800 600).2.2

/-! ### C8: coordinate formulas -/

theorem layoutOrder_perm (ns : List WorkflowNode) :
    List.Perm (layoutOrder ns) ns :=
  (stableSort_perm _ _).trans (stableSort_perm _ _)

theorem layoutOrder_mem (ns : List WorkflowNode) (v : WorkflowNode) :
    v ∈ layoutOrder ns ↔ v ∈ ns :=
  (layoutOrder_perm ns).mem_iff

theorem renderedOf_coordProp (o : LayoutOrientation)
    (ranks : List (String × Nat)) (st : LaneState) (node : WorkflowNode)
    (rk : Nat) (hrk : mapFind? ranks node.id = some rk) :
    CoordProp o ranks (renderedOf o ranks st node) := by
  refine ⟨rk, by simp [renderedOf, hrk], ?_, ?_⟩
  · intro ho
    subst ho
    constructor <;> simp [renderedOf, nodeCoords, hrk]
  · intro ho
    subst ho
    constructor <;> simp [renderedOf, nodeCoords, hrk]

theorem laneFinal_coordProp (ns : List WorkflowNode) (o : LayoutOrientation) :
    ∀ p ∈ (laneFinal ns o).nodeMap, CoordProp o (computeRanks ns) p.2 := by
  refine foldlPreserves (laneStep o (computeRanks ns))
    (fun st => ∀ p ∈ st.nodeMap, CoordProp o (computeRanks ns) p.2)
    (layoutOrder ns) ⟨[], []⟩ ?_ ?_
  · intro st a ha hI p hp
    have ha' : a ∈ ns := (layoutOrder_mem ns a).mp ha
    obtain ⟨rk, hrk⟩ := Option.isSome_iff_exists.mp (computeRanks_complete ns a ha')
    rcases mem_mapSet hp with hpe | hpm
    · rw [hpe]
      exact renderedOf_coordProp o (computeRanks ns) st a rk hrk
    · exact hI p hpm
  · intro p hp
    exact absurd hp (List.not_mem_nil p)

/-- C8: every rendered node's coordinates follow the source formulas exactly:
vertically `x = lane * (nodeWidth + laneGap) + margin`,
`y = rank * (nodeHeight + rankGap) + margin`; horizontally
`x = rank * rankGap + margin`, `y = lane * (nodeHeight + laneGap) + margin`
(margin 50, with the constants of `src/constants.ts`). -/
theorem c8_coordinate_formulas (ns : List WorkflowNode)
    (o : LayoutOrientation) (vw vh : Int) :
    ∀ v ∈ (calculateLayout ns o vw vh).nodes, ∃ rk,
      mapFind? (computeRanks ns) v.id = some rk ∧
      (o = LayoutOrientation.vertical →
        v.x = (v.lane : Int) * (NODE_WIDTH + GAP_X) + 50 ∧
        v.y = (rk : Int) * (NODE_HEIGHT + GAP_Y) + 50) ∧
      (o = LayoutOrientation.horizontal →
        v.x = (rk : Int) * H_GAP_X + 50 ∧
        v.y = (v.lane : Int) * (H_NODE_HEIGHT + H_GAP_Y) + 50) := by
  intro v hv
  have hv' : v ∈ (laneFinal ns o).nodeMap.map Prod.snd := hv
  obtain ⟨p, hp, hpe⟩ := List.mem_map.mp hv'
  have hc := laneFinal_coordProp ns o p hp
  rw [hpe] at hc
  exact hc

/-- Witness for C8 at a one-node input rendered vertically. -/
theorem c8_coordinate_formulas_witness :
    ∃ rk, mapFind? (computeRanks [nRoot]) rRoot.id = some rk ∧
      (LayoutOrientation.vertical = LayoutOrientation.vertical →
        rRoot.x = (rRoot.lane : Int) * (NODE_WIDTH + GAP_X) + 50 ∧
        rRoot.y = (rk : Int) * (NODE_HEIGHT + GAP_Y) + 50) ∧
      (LayoutOrientation.vertical = LayoutOrientation.horizontal →
        rRoot.x = (rk : Int) * H_GAP_X + 50 ∧
        rRoot.y = (rRoot.lane : Int) * (H_NODE_HEIGHT + H_GAP_Y) + 50) :=
  c8_coordinate_formulas [nRoot] LayoutOrientation.vertical 800 600 rRoot
    (by decide)

/-! ### C6: one rendered node per distinct id -/

theorem laneFold_keys (o : LayoutOrientation) (ranks : List (String × Nat)) :
    ∀ (l : List WorkflowNode) (st : LaneState),
      (st.nodeMap.map Prod.fst).Nodup →
      ((l.foldl (laneStep o ranks) st).nodeMap.map Prod.fst).Nodup ∧
      ∀ a, a ∈ (l.foldl (laneStep o ranks) st).nodeMap.map Prod.fst ↔
        (a ∈ st.nodeMap.map Prod.fst ∨ a ∈ l.map (fun n => n.id)) := by
  intro l
  induction l with
  | nil =>
    intro st h
    exact ⟨h, fun a => by simp⟩
  | cons n rest ih =>
    intro st h
    simp only [List.foldl_cons]
    by_cases hs : (mapFind? st.nodeMap n.id).isSome
    · have hkeys : (laneStep o ranks st n).nodeMap.map Prod.fst =
          st.nodeMap.map Prod.fst := mapSet_fst_of_isSome _ _ _ hs
      obtain ⟨ih1, ih2⟩ := ih (laneStep o ranks st n) (by rw [hkeys]; exact h)
      refine ⟨ih1, fun a => ?_⟩
      rw [ih2 a, hkeys]
      have hn : n.id ∈ st.nodeMap.map Prod.fst :=
        (mapFind?_isSome_iff_mem _ _).mp hs
      simp only [List.map_cons, List.mem_cons]
      constructor
      · rintro (ha | ha)
        · exact Or.inl ha
        · exact Or.inr (Or.inr ha)
      · rintro (ha | ha | ha)
        · exact Or.inl ha
        · exact Or.inl (ha ▸ hn)
        · exact Or.inr ha
    · have hnone : mapFind? st.nodeMap n.id = none :=
        Option.not_isSome_iff_eq_none.mp hs
      have hkeys : (laneStep o ranks st n).nodeMap.map Prod.fst =
          st.nodeMap.map Prod.fst ++ [n.id] := mapSet_fst_of_none _ _ _ hnone
      have hnd' : ((laneStep o ranks st n).nodeMap.map Prod.fst).Nodup := by
        rw [hkeys]
        rw [List.nodup_append]
        refine ⟨h, List.nodup_singleton _, ?_⟩
        intro a ha hmem
        have : a = n.id := by simpa using hmem
        subst this
        exact hs ((mapFind?_isSome_iff_mem _ _).mpr ha)
      obtain ⟨ih1, ih2⟩ := ih (laneStep o ranks st n) hnd'
      refine ⟨ih1, fun a => ?_⟩
      rw [ih2 a, hkeys]
      simp only [List.map_cons, List.mem_cons, List.mem_append,
        List.mem_singleton]
      tauto

theorem laneFinal_keys (ns : List WorkflowNode) (o : LayoutOrientation) :
    ((laneFinal ns o).nodeMap.map Prod.fst).Nodup ∧
    ∀ a, a ∈ (laneFinal ns o).nodeMap.map Prod.fst ↔
      a ∈ ns.map (fun n => n.id) := by
  obtain ⟨h1, h2⟩ := laneFold_keys o (computeRanks ns) (layoutOrder ns)
    ⟨[], []⟩ List.nodup_nil
  have hlf : laneFinal ns o =
      (layoutOrder ns).foldl (laneStep o (computeRanks ns)) ⟨[], []⟩ := rfl
  rw [hlf]
  refine ⟨h1, fun a => ?_⟩
  rw [h2 a]
  have hperm : List.Perm ((layoutOrder ns).map (fun n => n.id))
      (ns.map (fun n => n.id)) := (layoutOrder_perm ns).map _
  simp [hperm.mem_iff]

theorem laneFold_ids (o : LayoutOrientation) (ranks : List (String × Nat))
    (l : List WorkflowNode) (st : LaneState)
    (h : ∀ p ∈ st.nodeMap, p.2.id = p.1) :
    ∀ p ∈ (l.foldl (laneStep o ranks) st).nodeMap, p.2.id = p.1 := by
  refine foldlPreserves (laneStep o ranks)
    (fun st' => ∀ p ∈ st'.nodeMap, p.2.id = p.1) l st ?_ h
  intro st' a _ hI p hp
  rcases mem_mapSet hp with hpe | hpm
  · subst hpe
    rfl
  · exact hI p hpm

theorem laneFinal_length (ns : List WorkflowNode) (o : LayoutOrientation) :
    (laneFinal ns o).nodeMap.length = (ns.map (fun n => n.id)).dedup.length := by
  obtain ⟨hnd, hmem⟩ := laneFinal_keys ns o
  have hperm : List.Perm ((laneFinal ns o).nodeMap.map Prod.fst)
      (ns.map (fun n => n.id)).dedup := by
    rw [List.perm_ext_iff_of_nodup hnd (List.nodup_dedup _)]
    intro a
    rw [hmem a, List.mem_dedup]
  have hlen := hperm.length_eq
  simpa using hlen

/-- C6: `calculateLayout` returns exactly one `RenderedNode` per distinct input
id — hence one per input node precisely when the ids are pairwise distinct —
and every input id is represented; duplicate ids are tolerated without
crashing (the engine is total). -/
theorem c6_nodes_per_distinct_id (ns : List WorkflowNode)
    (o : LayoutOrientation) (vw vh : Int) :
    (calculateLayout ns o vw vh).nodes.length =
      (ns.map (fun n => n.id)).dedup.length ∧
    ∀ i ∈ ns.map (fun n => n.id),
      ∃ r ∈ (calculateLayout ns o vw vh).nodes, r.id = i := by
  constructor
  · show ((laneFinal ns o).nodeMap.map Prod.snd).length = _
    rw [List.length_map]
    exact laneFinal_length ns o
  · intro i hi
    obtain ⟨hnd, hmem⟩ := laneFinal_keys ns o
    obtain ⟨p, hp, hpe⟩ := List.mem_map.mp ((hmem i).mpr hi)
    refine ⟨p.2, List.mem_map_of_mem Prod.snd hp, ?_⟩
    have hid := laneFold_ids o (computeRanks ns) (layoutOrder ns) ⟨[], []⟩
      (fun q hq => absurd hq (List.not_mem_nil q)) p hp
    rw [hid, hpe]

/-- Witness for C6: the single input id of a one-node roadmap is represented
among the rendered nodes. -/
theorem c6_nodes_per_distinct_id_witness :
    ∃ r ∈ (calculateLayout [nRoot] LayoutOrientation.vertical 800 600).nodes,
      r.id = nRoot.id :=
  (c6_nodes_per_distinct_id [nRoot] LayoutOrientation.vertical 800 600).2
    nRoot.id (by decide)

/-- Counterexample to C6 as stated: two input nodes sharing the id `dup`
produce a single rendered node, not one per input node. -/
theorem c6_duplicate_ids_counterexample :
    (calculateLayout [nDupRoot, nDupChild] LayoutOrientation.vertical
      800 600).nodes.length = 1 ∧
    [nDupRoot, nDupChild].length = 2 := by
  constructor
  · decide
  · rfl

/-! ### C5: a node whose only parent dangles -/

theorem rankLoop_preserves (sorted : List WorkflowNode)
    (P : List (String × Nat) → Prop)
    (hstep : ∀ m, P m → P (rankPass sorted m).1) :
    ∀ (fuel : Nat) (m : List (String × Nat)), P m →
      P (rankLoop sorted fuel m).1 := by
  intro fuel
  induction fuel with
  | zero => intro m h; exact h
  | succ fuel ih =>
    intro m h
    simp only [rankLoop]
    by_cases hc : (rankPass sorted m).2
    · simp only [hc, if_true]
      exact ih _ (hstep m h)
    · simp only [hc, if_false]
      exact hstep m h

theorem rankStep_preserves_unranked (ns : List WorkflowNode)
    (v : WorkflowNode) (p : String) (hvp : v.parentIds = [p])
    (hpid : p ∉ ns.map (fun n => n.id))
    (huniq : ∀ w ∈ ns, w.id = v.id → w = v)
    (st : List (String × Nat) × Bool) (n : WorkflowNode) (hn : n ∈ ns)
    (hJ : mapFind? st.1 p = none ∧ mapFind? st.1 v.id = none) :
    mapFind? (rankStep st n).1 p = none ∧
    mapFind? (rankStep st n).1 v.id = none := by
  obtain ⟨hJp, hJv⟩ := hJ
  have hnp : n.id ≠ p := by
    intro he
    exact hpid (he ▸ List.mem_map_of_mem (fun w => w.id) hn)
  unfold rankStep
  cases hemp : n.parentIds.isEmpty with
  | true => simp only [hemp, if_true]; exact ⟨hJp, hJv⟩
  | false =>
    simp only [hemp, Bool.false_eq_true, if_false]
    cases hmax : maxParentRank st.1 n.parentIds with
    | none => exact ⟨hJp, hJv⟩
    | some mpr =>
      have hnv : n.id ≠ v.id := by
        intro he
        have hne : n = v := huniq n hn he
        subst hne
        rw [hvp] at hmax
        simp [maxParentRank, mprStep, hJp] at hmax
      cases hcur : mapFind? st.1 n.id with
      | none =>
        refine ⟨?_, ?_⟩
        · rw [mapFind?_mapSet_ne _ _ _ _ (Ne.symm hnp)]
          exact hJp
        · rw [mapFind?_mapSet_ne _ _ _ _ (Ne.symm hnv)]
          exact hJv
      | some cur =>
        by_cases hlt : cur < mpr + 1
        · simp only [hlt, if_true]
          refine ⟨?_, ?_⟩
          · rw [mapFind?_mapSet_ne _ _ _ _ (Ne.symm hnp)]
            exact hJp
          · rw [mapFind?_mapSet_ne _ _ _ _ (Ne.symm hnv)]
            exact hJv
        · simp only [hlt, if_false]
          exact ⟨hJp, hJv⟩

theorem initStep_preserves_unranked (ns : List WorkflowNode)
    (v : WorkflowNode) (p : String) (hvp : v.parentIds = [p])
    (hpid : p ∉ ns.map (fun n => n.id))
    (huniq : ∀ w ∈ ns, w.id = v.id → w = v)
    (m : List (String × Nat)) (n : WorkflowNode) (hn : n ∈ ns)
    (hJ : mapFind? m p = none ∧ mapFind? m v.id = none) :
    mapFind? (if n.parentIds.isEmpty then mapSet m n.id 0 else m) p = none ∧
    mapFind? (if n.parentIds.isEmpty then mapSet m n.id 0 else m) v.id = none := by
  obtain ⟨hJp, hJv⟩ := hJ
  have hnp : n.id ≠ p := by
    intro he
    exact hpid (he ▸ List.mem_map_of_mem (fun w => w.id) hn)
  cases hemp : n.parentIds.isEmpty with
  | false => simp only [hemp, Bool.false_eq_true, if_false]; exact ⟨hJp, hJv⟩
  | true =>
    have hnv : n.id ≠ v.id := by
      intro he
      have hne : n = v := huniq n hn he
      subst hne
      rw [hvp] at hemp
      simp at hemp
    simp only [hemp, if_true]
    refine ⟨?_, ?_⟩
    · rw [mapFind?_mapSet_ne _ _ _ _ (Ne.symm hnp)]
      exact hJp
    · rw [mapFind?_mapSet_ne _ _ _ _ (Ne.symm hnv)]
      exact hJv

theorem fallback_foldl_keeps (l : List (Nat × WorkflowNode)) (i : String)
    (r : Nat) (m : List (String × Nat)) (h : mapFind? m i = some r) :
    mapFind? (l.foldl fallbackStep m) i = some r := by
  refine foldlPreserves fallbackStep (fun m' => mapFind? m' i = some r) l m
    ?_ h
  intro m' q _ hI
  unfold fallbackStep
  by_cases hs : (mapFind? m' q.2.id).isSome
  · simp only [hs, if_true]
    exact hI
  · simp only [hs, Bool.false_eq_true, if_false]
    have hne : q.2.id ≠ i := by
      intro he
      rw [he, hI] at hs
      simp at hs
    rw [mapFind?_mapSet_ne _ _ _ _ (Ne.symm hne)]
    exact hI

theorem fallback_sets_indexOf (v : WorkflowNode) :
    ∀ (l : List WorkflowNode) (start : Nat) (m : List (String × Nat)),
      mapFind? m v.id = none → v.id ∈ l.map (fun n => n.id) →
      mapFind? ((List.enumFrom start l).foldl fallbackStep m) v.id =
        some (start + (l.map (fun n => n.id)).indexOf v.id) := by
  intro l
  induction l with
  | nil => intro start m _ hmem; simp at hmem
  | cons n rest ih =>
    intro start m hnone hmem
    have henum : List.enumFrom start (n :: rest) =
        (start, n) :: List.enumFrom (start + 1) rest := rfl
    rw [henum, List.foldl_cons]
    by_cases he : n.id = v.id
    · have hstep : fallbackStep m (start, n) = mapSet m n.id start := by
        unfold fallbackStep
        have : mapFind? m n.id = none := by rw [he]; exact hnone
        simp [this]
      rw [hstep]
      have hval : mapFind? (mapSet m n.id start) v.id = some start := by
        rw [← he]
        exact mapFind?_mapSet_self _ _ _
      rw [fallback_foldl_keeps _ _ _ _ hval]
      have hidx : ((n :: rest).map (fun w => w.id)).indexOf v.id = 0 := by
        simp [List.indexOf_cons, he]
      rw [hidx]
      simp
    · have hnone' : mapFind? (fallbackStep m (start, n)) v.id = none := by
        unfold fallbackStep
        by_cases hs : (mapFind? m n.id).isSome
        · simp only [hs, if_true]
          exact hnone
        · simp only [hs, Bool.false_eq_true, if_false]
          rw [mapFind?_mapSet_ne _ _ _ _ (Ne.symm he)]
          exact hnone
      have hmem' : v.id ∈ rest.map (fun w => w.id) := by
        rcases (by simpa using hmem :
            v.id = n.id ∨ ∃ a ∈ rest, a.id = v.id) with hx | hx
        · exact absurd hx.symm he
        · obtain ⟨a, ha, hae⟩ := hx
          exact List.mem_map.mpr ⟨a, ha, hae⟩
      rw [ih (start + 1) _ hnone' hmem']
      have hidx : ((n :: rest).map (fun w => w.id)).indexOf v.id =
          (rest.map (fun w => w.id)).indexOf v.id + 1 := by
        simp [List.indexOf_cons, he]
      rw [hidx]
      exact congrArg some (by omega)

theorem laneFold_sources (ns : List WorkflowNode) (o : LayoutOrientation) :
    ∀ q ∈ (laneFinal ns o).nodeMap, ∃ w, w ∈ ns ∧ w.id = q.1 ∧
      q.2.id = w.id ∧ q.2.parentIds = w.parentIds := by
  refine foldlPreserves (laneStep o (computeRanks ns))
    (fun st => ∀ q ∈ st.nodeMap, ∃ w, w ∈ ns ∧ w.id = q.1 ∧
      q.2.id = w.id ∧ q.2.parentIds = w.parentIds)
    (layoutOrder ns) ⟨[], []⟩ ?_ ?_
  · intro st a ha hI q hq
    rcases mem_mapSet hq with hqe | hqm
    · subst hqe
      exact ⟨a, (layoutOrder_mem ns a).mp ha, rfl, rfl, rfl⟩
    · exact hI q hqm
  · intro q hq
    exact absurd hq (List.not_mem_nil q)

/-- C5 (amended): a node whose only listed parent id does not occur among the
input ids, and whose own id is not shared by any other input node, receives
the fallback rank — its position in the date-sorted order, which is 0 exactly
when it comes first — and contributes zero rendered edges (its parent lookup
fails, so no edge is emitted for it).  The id-uniqueness qualifier is needed:
the rank map is keyed by id, so a same-id parentless sibling would give the id
rank 0 at initialisation instead of the date-sort-index fallback. -/
theorem c5_dangling_parent_rank_and_edges (ns : List WorkflowNode)
    (o : LayoutOrientation) (v : WorkflowNode) (p : String)
    (hv : v ∈ ns) (hvp : v.parentIds = [p])
    (hpid : p ∉ ns.map (fun n => n.id))
    (huniq : ∀ w ∈ ns, w.id = v.id → w = v) :
    mapFind? (computeRanks ns) v.id =
      some (((sortedByDate ns).map (fun n => n.id)).indexOf v.id) ∧
    ∀ r ∈ renderedNodes ns o, r.id = v.id →
      edgesOf (laneFinal ns o).nodeMap r = [] := by
  have hsub : ∀ w ∈ sortedByDate ns, w ∈ ns := fun w hw =>
    (stableSort_perm dateLe ns).mem_iff.mp hw
  constructor
  · have hsmem : v ∈ sortedByDate ns :=
      (stableSort_perm dateLe ns).mem_iff.mpr hv
    have hmemids : v.id ∈ (sortedByDate ns).map (fun n => n.id) :=
      List.mem_map_of_mem _ hsmem
    have hJinit : mapFind? (initRanks (sortedByDate ns)) p = none ∧
        mapFind? (initRanks (sortedByDate ns)) v.id = none := by
      refine foldlPreserves _
        (fun m => mapFind? m p = none ∧ mapFind? m v.id = none)
        (sortedByDate ns) [] ?_ ⟨rfl, rfl⟩
      intro m n hn hI
      exact initStep_preserves_unranked ns v p hvp hpid huniq m n (hsub n hn) hI
    have hJloop : mapFind? (rankLoop (sortedByDate ns) (ns.length + 2)
          (initRanks (sortedByDate ns))).1 p = none ∧
        mapFind? (rankLoop (sortedByDate ns) (ns.length + 2)
          (initRanks (sortedByDate ns))).1 v.id = none := by
      refine rankLoop_preserves (sortedByDate ns)
        (fun m => mapFind? m p = none ∧ mapFind? m v.id = none)
        ?_ _ _ hJinit
      intro m hm
      refine foldlPreserves rankStep
        (fun st => mapFind? st.1 p = none ∧ mapFind? st.1 v.id = none)
        (sortedByDate ns) (m, false) ?_ hm
      intro st n hn hI
      exact rankStep_preserves_unranked ns v p hvp hpid huniq st n (hsub n hn) hI
    have hcr : computeRanks ns = applyFallback (sortedByDate ns)
        (rankLoop (sortedByDate ns) (ns.length + 2)
          (initRanks (sortedByDate ns))).1 := rfl
    rw [hcr]
    unfold applyFallback
    have henum : (sortedByDate ns).enum =
        List.enumFrom 0 (sortedByDate ns) := rfl
    rw [henum, fallback_sets_indexOf v (sortedByDate ns) 0 _ hJloop.2 hmemids]
    simp
  · intro r hr hrid
    obtain ⟨q, hq, hqe⟩ := List.mem_map.mp hr
    obtain ⟨w, hw, hwid, hqid, hqpar⟩ := laneFold_sources ns o q hq
    have hwv : w = v := by
      refine huniq w hw ?_
      rw [← hqid, hqe, hrid]
    have hrp : r.parentIds = [p] := by
      rw [← hqe, hqpar, hwv, hvp]
    have hpn : mapFind? (laneFinal ns o).nodeMap p = none := by
      cases hc : mapFind? (laneFinal ns o).nodeMap p with
      | none => rfl
      | some fp =>
        have hkmem : p ∈ (laneFinal ns o).nodeMap.map Prod.fst :=
          (mapFind?_isSome_iff_mem _ _).mp (by simp [hc])
        exact absurd (((laneFinal_keys ns o).2 p).mp hkmem) hpid
    simp [edgesOf, hrp, hpn]

/-- Witness for C5 at a one-node input whose only parent dangles: the node is
first in date order, so its fallback rank is its index, and it has no edges. -/
theorem c5_dangling_parent_witness :
    mapFind? (computeRanks [nDangling]) nDangling.id =
      some (((sortedByDate [nDangling]).map (fun n => n.id)).indexOf
        nDangling.id) ∧
    ∀ r ∈ renderedNodes [nDangling] LayoutOrientation.vertical,
      r.id = nDangling.id →
      edgesOf (laneFinal [nDangling] LayoutOrientation.vertical).nodeMap r = [] :=
  c5_dangling_parent_rank_and_edges [nDangling] LayoutOrientation.vertical
    nDangling "ghost" (by decide) (by decide) (by decide) (by decide)

/-- Counterexample to C5 as stated: a dangling-parent node that is second in
date order gets fallback rank 1, not 0. -/
theorem c5_dangling_rank_counterexample :
    nDangling ∈ [nRoot, nDangling] ∧
    nDangling.parentIds = ["ghost"] ∧
    "ghost" ∉ [nRoot, nDangling].map (fun n => n.id) ∧
    mapFind? (computeRanks [nRoot, nDangling]) nDangling.id ≠ some 0 := by
  refine ⟨by decide, by decide, by decide, by decide⟩

/-! ### C7: status never influences the layout -/

theorem foldlCongr {σ α β : Type} (R : α → β → Prop) (f : σ → α → σ)
    (g : σ → β → σ) (hfg : ∀ s a b, R a b → f s a = g s b) :
    ∀ {l₁ : List α} {l₂ : List β}, List.Forall₂ R l₁ l₂ →
      ∀ s, l₁.foldl f s = l₂.foldl g s := by
  intro l₁ l₂ h
  induction h with
  | nil => intro s; rfl
  | @cons a b t₁ t₂ hab _ ih =>
    intro s
    simp only [List.foldl_cons]
    rw [hfg s a b hab]
    exact ih _

theorem forall2_map_rel {α β γ δ : Type} (R : α → β → Prop)
    (R2 : γ → δ → Prop) (f : α → γ) (g : β → δ)
    (hf : ∀ a b, R a b → R2 (f a) (g b)) :
    ∀ {l₁ : List α} {l₂ : List β}, List.Forall₂ R l₁ l₂ →
      List.Forall₂ R2 (l₁.map f) (l₂.map g) := by
  intro l₁ l₂ h
  induction h with
  | nil => exact List.Forall₂.nil
  | @cons a b t₁ t₂ hab _ ih =>
    exact List.Forall₂.cons (hf a b hab) ih

theorem forall2_map_eq {α β γ : Type} (R : α → β → Prop) (f : α → γ)
    (g : β → γ) (hf : ∀ a b, R a b → f a = g b) :
    ∀ {l₁ : List α} {l₂ : List β}, List.Forall₂ R l₁ l₂ →
      l₁.map f = l₂.map g := by
  intro l₁ l₂ h
  induction h with
  | nil => rfl
  | @cons a b t₁ t₂ hab _ ih =>
    simp only [List.map_cons]
    rw [hf a b hab, ih]

theorem dateLe_congr {a b a' b' : WorkflowNode} (h1 : sameExceptStatus a a')
    (h2 : sameExceptStatus b b') : dateLe a b = dateLe a' b' := by
  unfold dateLe
  rw [h1.2.1, h2.2.1]

theorem sortedByDate_forall2 {ns₁ ns₂ : List WorkflowNode}
    (h : List.Forall₂ sameExceptStatus ns₁ ns₂) :
    List.Forall₂ sameExceptStatus (sortedByDate ns₁) (sortedByDate ns₂) :=
  stableSort_forall2 sameExceptStatus dateLe dateLe
    (fun _ _ _ _ ha hb => dateLe_congr ha hb) h

theorem rankStep_congr (s : List (String × Nat) × Bool) {a b : WorkflowNode}
    (hab : sameExceptStatus a b) : rankStep s a = rankStep s b := by
  obtain ⟨hid, _, hpar⟩ := hab
  unfold rankStep
  rw [hid, hpar]

theorem rankPass_congr {l₁ l₂ : List WorkflowNode}
    (h : List.Forall₂ sameExceptStatus l₁ l₂) (m : List (String × Nat)) :
    rankPass l₁ m = rankPass l₂ m :=
  foldlCongr sameExceptStatus rankStep rankStep
    (fun s _ _ hab => rankStep_congr s hab) h (m, false)

theorem initRanks_congr {l₁ l₂ : List WorkflowNode}
    (h : List.Forall₂ sameExceptStatus l₁ l₂) :
    initRanks l₁ = initRanks l₂ :=
  foldlCongr sameExceptStatus _ _
    (fun s a b hab => by
      obtain ⟨hid, _, hpar⟩ := hab
      simp only [hpar, hid]) h []

theorem rankLoop_congr {l₁ l₂ : List WorkflowNode}
    (h : List.Forall₂ sameExceptStatus l₁ l₂) :
    ∀ (fuel : Nat) (m : List (String × Nat)),
      rankLoop l₁ fuel m = rankLoop l₂ fuel m := by
  intro fuel
  induction fuel with
  | zero => intro m; rfl
  | succ fuel ih =>
    intro m
    simp only [rankLoop, rankPass_congr h m, ih]

theorem fallback_enum_congr :
    ∀ {l₁ l₂ : List WorkflowNode}, List.Forall₂ sameExceptStatus l₁ l₂ →
      ∀ (start : Nat) (m : List (String × Nat)),
        (List.enumFrom start l₁).foldl fallbackStep m =
        (List.enumFrom start l₂).foldl fallbackStep m := by
  intro l₁ l₂ h
  induction h with
  | nil => intro start m; rfl
  | @cons a b t₁ t₂ hab _ ih =>
    intro start m
    have h₁ : List.enumFrom start (a :: t₁) =
        (start, a) :: List.enumFrom (start + 1) t₁ := rfl
    have h₂ : List.enumFrom start (b :: t₂) =
        (start, b) :: List.enumFrom (start + 1) t₂ := rfl
    rw [h₁, h₂, List.foldl_cons, List.foldl_cons]
    have hstep : fallbackStep m (start, a) = fallbackStep m (start, b) := by
      unfold fallbackStep
      rw [hab.1]
    rw [hstep]
    exact ih (start + 1) _

theorem computeRanks_congr {ns₁ ns₂ : List WorkflowNode}
    (h : List.Forall₂ sameExceptStatus ns₁ ns₂) :
    computeRanks ns₁ = computeRanks ns₂ := by
  have hlen : ns₁.length = ns₂.length := h.length_eq
  have hs := sortedByDate_forall2 h
  have hcr₁ : computeRanks ns₁ = applyFallback (sortedByDate ns₁)
      (rankLoop (sortedByDate ns₁) (ns₁.length + 2)
        (initRanks (sortedByDate ns₁))).1 := rfl
  have hcr₂ : computeRanks ns₂ = applyFallback (sortedByDate ns₂)
      (rankLoop (sortedByDate ns₂) (ns₂.length + 2)
        (initRanks (sortedByDate ns₂))).1 := rfl
  rw [hcr₁, hcr₂, initRanks_congr hs, rankLoop_congr hs, hlen]
  unfold applyFallback
  have he₁ : (sortedByDate ns₁).enum = List.enumFrom 0 (sortedByDate ns₁) := rfl
  have he₂ : (sortedByDate ns₂).enum = List.enumFrom 0 (sortedByDate ns₂) := rfl
  rw [he₁, he₂, fallback_enum_congr hs 0 _]

theorem laneOrderLe_congr (m : List (String × Nat))
    {a b a' b' : WorkflowNode} (h1 : sameExceptStatus a a')
    (h2 : sameExceptStatus b b') : laneOrderLe m a b = laneOrderLe m a' b' := by
  unfold laneOrderLe
  rw [h1.1, h1.2.1, h2.1, h2.2.1]

theorem layoutOrder_forall2 {ns₁ ns₂ : List WorkflowNode}
    (h : List.Forall₂ sameExceptStatus ns₁ ns₂) :
    List.Forall₂ sameExceptStatus (layoutOrder ns₁) (layoutOrder ns₂) := by
  unfold layoutOrder
  rw [computeRanks_congr h]
  exact stableSort_forall2 sameExceptStatus _ _
    (fun _ _ _ _ ha hb => laneOrderLe_congr _ ha hb) (sortedByDate_forall2 h)

theorem mapFind?_forall2 {κ α β : Type} [DecidableEq κ] (G : α → β → Prop) :
    ∀ {m₁ : List (κ × α)} {m₂ : List (κ × β)},
      List.Forall₂ (fun q₁ q₂ => q₁.1 = q₂.1 ∧ G q₁.2 q₂.2) m₁ m₂ →
      ∀ k, (mapFind? m₁ k = none ∧ mapFind? m₂ k = none) ∨
        ∃ v₁ v₂, mapFind? m₁ k = some v₁ ∧ mapFind? m₂ k = some v₂ ∧
          G v₁ v₂ := by
  intro m₁ m₂ h
  induction h with
  | nil => intro k; exact Or.inl ⟨rfl, rfl⟩
  | @cons q₁ q₂ t₁ t₂ hq _ ih =>
    intro k
    obtain ⟨k₁, v₁⟩ := q₁
    obtain ⟨k₂, v₂⟩ := q₂
    obtain ⟨hk, hG⟩ := hq
    simp only at hk hG
    subst hk
    by_cases hkk : k₁ = k
    · subst hkk
      right
      exact ⟨v₁, v₂, by simp [mapFind?], by simp [mapFind?], hG⟩
    · have e₁ : mapFind? ((k₁, v₁) :: t₁) k = mapFind? t₁ k := by
        simp [mapFind?, hkk]
      have e₂ : mapFind? ((k₁, v₂) :: t₂) k = mapFind? t₂ k := by
        simp [mapFind?, hkk]
      rw [e₁, e₂]
      exact ih k

theorem mapSet_forall2 {κ α β : Type} [DecidableEq κ] (G : α → β → Prop) :
    ∀ {m₁ : List (κ × α)} {m₂ : List (κ × β)},
      List.Forall₂ (fun q₁ q₂ => q₁.1 = q₂.1 ∧ G q₁.2 q₂.2) m₁ m₂ →
      ∀ (k : κ) (v₁ : α) (v₂ : β), G v₁ v₂ →
        List.Forall₂ (fun q₁ q₂ => q₁.1 = q₂.1 ∧ G q₁.2 q₂.2)
          (mapSet m₁ k v₁) (mapSet m₂ k v₂) := by
  intro m₁ m₂ h
  induction h with
  | nil =>
    intro k v₁ v₂ hG
    exact List.Forall₂.cons ⟨rfl, hG⟩ List.Forall₂.nil
  | @cons q₁ q₂ t₁ t₂ hq ht ih =>
    intro k v₁ v₂ hG
    obtain ⟨k₁, w₁⟩ := q₁
    obtain ⟨k₂, w₂⟩ := q₂
    obtain ⟨hk, hGw⟩ := hq
    simp only at hk hGw
    subst hk
    by_cases hkk : k₁ = k
    · simp only [mapSet, if_pos hkk]
      exact List.Forall₂.cons ⟨rfl, hG⟩ ht
    · simp only [mapSet, if_neg hkk]
      exact List.Forall₂.cons ⟨rfl, hGw⟩ (ih k v₁ v₂ hG)

theorem laneStep_forall2 (o : LayoutOrientation)
    (ranks : List (String × Nat)) {st₁ st₂ : LaneState}
    (halloc : st₁.alloc = st₂.alloc)
    (hnm : List.Forall₂ (fun q₁ q₂ => q₁.1 = q₂.1 ∧ geomEq q₁.2 q₂.2)
      st₁.nodeMap st₂.nodeMap)
    {a b : WorkflowNode} (hab : sameExceptStatus a b) :
    (laneStep o ranks st₁ a).alloc = (laneStep o ranks st₂ b).alloc ∧
    List.Forall₂ (fun q₁ q₂ => q₁.1 = q₂.1 ∧ geomEq q₁.2 q₂.2)
      (laneStep o ranks st₁ a).nodeMap (laneStep o ranks st₂ b).nodeMap := by
  obtain ⟨hid, hdate, hpar⟩ := hab
  have hinherit : inheritedLane st₁ a = inheritedLane st₂ b := by
    unfold inheritedLane
    rw [hpar]
    cases hp : b.parentIds with
    | nil => rfl
    | cons pid rest =>
      show (match mapFind? st₁.nodeMap pid with
        | none => none
        | some fp =>
          if mapFind? st₁.alloc fp.lane = some fp.id then some fp.lane
          else none) =
        (match mapFind? st₂.nodeMap pid with
        | none => none
        | some fp =>
          if mapFind? st₂.alloc fp.lane = some fp.id then some fp.lane
          else none)
      rcases mapFind?_forall2 geomEq hnm pid with ⟨h1, h2⟩ |
        ⟨fp₁, fp₂, h1, h2, hG⟩
      · rw [h1, h2]
      · rw [h1, h2]
        obtain ⟨hfid, _, _, _, _, hflane⟩ := hG
        show (if mapFind? st₁.alloc fp₁.lane = some fp₁.id then some fp₁.lane
          else none) =
          (if mapFind? st₂.alloc fp₂.lane = some fp₂.id then some fp₂.lane
          else none)
        rw [halloc, hflane, hfid]
  have hlane : assignedLaneOf st₁ a = assignedLaneOf st₂ b := by
    unfold assignedLaneOf
    rw [hinherit, halloc]
  have hrend : geomEq (renderedOf o ranks st₁ a) (renderedOf o ranks st₂ b) := by
    unfold geomEq
    refine ⟨hid, hdate, hpar, ?_, ?_, hlane⟩
    · show (nodeCoords o ((mapFind? ranks a.id).getD 0) (assignedLaneOf st₁ a)).1 =
        (nodeCoords o ((mapFind? ranks b.id).getD 0) (assignedLaneOf st₂ b)).1
      rw [hid, hlane]
    · show (nodeCoords o ((mapFind? ranks a.id).getD 0) (assignedLaneOf st₁ a)).2 =
        (nodeCoords o ((mapFind? ranks b.id).getD 0) (assignedLaneOf st₂ b)).2
      rw [hid, hlane]
  constructor
  · show mapSet st₁.alloc (assignedLaneOf st₁ a) a.id =
      mapSet st₂.alloc (assignedLaneOf st₂ b) b.id
    rw [halloc, hlane, hid]
  · show List.Forall₂ _ (mapSet st₁.nodeMap a.id (renderedOf o ranks st₁ a))
      (mapSet st₂.nodeMap b.id (renderedOf o ranks st₂ b))
    rw [hid]
    exact mapSet_forall2 geomEq hnm b.id _ _ hrend

theorem laneFinal_forall2 {ns₁ ns₂ : List WorkflowNode}
    (h : List.Forall₂ sameExceptStatus ns₁ ns₂) (o : LayoutOrientation) :
    (laneFinal ns₁ o).alloc = (laneFinal ns₂ o).alloc ∧
    List.Forall₂ (fun q₁ q₂ => q₁.1 = q₂.1 ∧ geomEq q₁.2 q₂.2)
      (laneFinal ns₁ o).nodeMap (laneFinal ns₂ o).nodeMap := by
  have hranks := computeRanks_congr h
  have hl := layoutOrder_forall2 h
  have hlf₁ : laneFinal ns₁ o = (layoutOrder ns₁).foldl
      (laneStep o (computeRanks ns₁)) ⟨[], []⟩ := rfl
  have hlf₂ : laneFinal ns₂ o = (layoutOrder ns₂).foldl
      (laneStep o (computeRanks ns₂)) ⟨[], []⟩ := rfl
  rw [hlf₁, hlf₂, hranks]
  refine foldlRel sameExceptStatus
    (fun st₁ st₂ => st₁.alloc = st₂.alloc ∧
      List.Forall₂ (fun q₁ q₂ => q₁.1 = q₂.1 ∧ geomEq q₁.2 q₂.2)
        st₁.nodeMap st₂.nodeMap)
    (laneStep o (computeRanks ns₂)) (laneStep o (computeRanks ns₂))
    (fun s t a b hab hst => laneStep_forall2 o (computeRanks ns₂)
      hst.1 hst.2 hab) hl ?_
  exact ⟨rfl, List.Forall₂.nil⟩

/-- C7: two inputs that are element-wise identical except for `status` get the
same rank map and element-wise geometrically identical rendered nodes (same
id, date, parents, x, y and lane), and the same canvas size; status can only
influence colors and the dash-styling carried on edges, never the layout. -/
theorem c7_status_independence (ns₁ ns₂ : List WorkflowNode)
    (o : LayoutOrientation) (vw vh : Int)
    (h : List.Forall₂ sameExceptStatus ns₁ ns₂) :
    computeRanks ns₁ = computeRanks ns₂ ∧
    List.Forall₂ geomEq (calculateLayout ns₁ o vw vh).nodes
      (calculateLayout ns₂ o vw vh).nodes ∧
    (calculateLayout ns₁ o vw vh).width = (calculateLayout ns₂ o vw vh).width ∧
    (calculateLayout ns₁ o vw vh).height =
      (calculateLayout ns₂ o vw vh).height := by
  have hranks := computeRanks_congr h
  have hfin := laneFinal_forall2 h o
  have hnodes : List.Forall₂ geomEq (renderedNodes ns₁ o)
      (renderedNodes ns₂ o) :=
    forall2_map_rel _ geomEq Prod.snd Prod.snd (fun a b hab => hab.2) hfin.2
  have hx : (renderedNodes ns₁ o).map (fun n => n.x) =
      (renderedNodes ns₂ o).map (fun n => n.x) :=
    forall2_map_eq geomEq _ _ (fun a b hab => hab.2.2.2.1) hnodes
  have hy : (renderedNodes ns₁ o).map (fun n => n.y) =
      (renderedNodes ns₂ o).map (fun n => n.y) :=
    forall2_map_eq geomEq _ _ (fun a b hab => hab.2.2.2.2.1) hnodes
  refine ⟨hranks, hnodes, ?_, ?_⟩
  · show (match maxOfList ((renderedNodes ns₁ o).map (fun n => n.x)) with
      | none => vw
      | some m => max (m + (if o = LayoutOrientation.vertical then NODE_WIDTH
          else H_NODE_WIDTH) + 100) vw) =
      (match maxOfList ((renderedNodes ns₂ o).map (fun n => n.x)) with
      | none => vw
      | some m => max (m + (if o = LayoutOrientation.vertical then NODE_WIDTH
          else H_NODE_WIDTH) + 100) vw)
    rw [hx]
  · show (match maxOfList ((renderedNodes ns₁ o).map (fun n => n.y)) with
      | none => vh
      | some m => max (m + (if o = LayoutOrientation.vertical then NODE_HEIGHT
          else H_NODE_HEIGHT) + 100) vh) =
      (match maxOfList ((renderedNodes ns₂ o).map (fun n => n.y)) with
      | none => vh
      | some m => max (m + (if o = LayoutOrientation.vertical then NODE_HEIGHT
          else H_NODE_HEIGHT) + 100) vh)
    rw [hy]

/-- Witness for C7: the two-node chain with all-active statuses versus the same
chain with standby/abandoned statuses yields identical ranks and geometry. -/
theorem c7_status_independence_witness :
    computeRanks [nRoot, nChild] =
      computeRanks [nRootStandby, nChildAbandoned] ∧
    List.Forall₂ geomEq
      (calculateLayout [nRoot, nChild] LayoutOrientation.vertical 800 600).nodes
      (calculateLayout [nRootStandby, nChildAbandoned]
        LayoutOrientation.vertical 800 600).nodes ∧
    (calculateLayout [nRoot, nChild] LayoutOrientation.vertical 800 600).width =
      (calculateLayout [nRootStandby, nChildAbandoned]
        LayoutOrientation.vertical 800 600).width ∧
    (calculateLayout [nRoot, nChild] LayoutOrientation.vertical 800 600).height =
      (calculateLayout [nRootStandby, nChildAbandoned]
        LayoutOrientation.vertical 800 600).height :=
  c7_status_independence [nRoot, nChild] [nRootStandby, nChildAbandoned]
    LayoutOrientation.vertical 800 600
    (List.Forall₂.cons ⟨rfl, rfl, rfl⟩
      (List.Forall₂.cons ⟨rfl, rfl, rfl⟩ List.Forall₂.nil))

/-! ### C1: canonical depth and its properties -/

theorem foldl_max_le (c : Nat) :
    ∀ (l : List Nat) (a : Nat), a ≤ c → (∀ x ∈ l, x ≤ c) →
      l.foldl Nat.max a ≤ c := by
  intro l
  induction l with
  | nil => intro a ha _; simpa using ha
  | cons y ys ih =>
    intro a ha hall
    simp only [List.foldl_cons]
    exact ih _ (Nat.max_le.mpr ⟨ha, hall y (List.mem_cons_self y ys)⟩)
      (fun x hx => hall x (List.mem_cons_of_mem y hx))

theorem le_foldl_max :
    ∀ (l : List Nat) (a : Nat),
      a ≤ l.foldl Nat.max a ∧ ∀ x ∈ l, x ≤ l.foldl Nat.max a := by
  intro l
  induction l with
  | nil => intro a; exact ⟨Nat.le_refl a, fun x hx => absurd hx (List.not_mem_nil x)⟩
  | cons y ys ih =>
    intro a
    simp only [List.foldl_cons]
    obtain ⟨h1, h2⟩ := ih (Nat.max a y)
    refine ⟨Nat.le_trans (Nat.le_max_left a y) h1, fun x hx => ?_⟩
    rcases List.mem_cons.mp hx with he | hm
    · rw [he]
      exact Nat.le_trans (Nat.le_max_right a y) h1
    · exact h2 x hm

theorem find?_id_of_nodup (ns : List WorkflowNode)
    (hnd : (ns.map (fun n => n.id)).Nodup) (v : WorkflowNode) (hv : v ∈ ns) :
    ns.find? (fun n => n.id == v.id) = some v := by
  induction ns with
  | nil => cases hv
  | cons w rest ih =>
    by_cases hw : (w.id == v.id) = true
    · rw [@List.find?_cons_of_pos _ (fun n => n.id == v.id) w rest hw]
      rcases List.mem_cons.mp hv with he | hm
      · rw [he]
      · exfalso
        have hwe : w.id = v.id := eq_of_beq hw
        have hvin : v.id ∈ rest.map (fun n => n.id) :=
          List.mem_map_of_mem _ hm
        have hnotin : w.id ∉ rest.map (fun n => n.id) :=
          (List.nodup_cons.mp (by simpa using hnd)).1
        exact hnotin (hwe ▸ hvin)
    · rw [@List.find?_cons_of_neg _ (fun n => n.id == v.id) w rest hw]
      rcases List.mem_cons.mp hv with he | hm
      · exfalso
        subst he
        simp at hw
      · exact ih (List.nodup_cons.mp (by simpa using hnd)).2 hm

theorem depthF_fuel_congr (ns : List WorkflowNode) (D : String → Nat)
    (hDs : ∀ v ∈ ns, ∀ p ∈ v.parentIds, D p < D v.id) :
    ∀ (b : Nat) (i : String), D i < b → ∀ (f₁ f₂ : Nat), D i < f₁ → D i < f₂ →
      depthF ns f₁ i = depthF ns f₂ i := by
  intro b
  induction b with
  | zero => intro i hib; omega
  | succ b ih =>
    intro i hib f₁ f₂ h1 h2
    cases f₁ with
    | zero => omega
    | succ g₁ =>
      cases f₂ with
      | zero => omega
      | succ g₂ =>
        show depthF ns (g₁ + 1) i = depthF ns (g₂ + 1) i
        cases hf : ns.find? (fun n => n.id == i) with
        | none => simp [depthF, hf]
        | some v =>
          have hv : v ∈ ns := List.mem_of_find?_eq_some hf
          have hvid : v.id = i := by simpa using List.find?_some hf
          by_cases hemp : v.parentIds.isEmpty
          · simp [depthF, hf, hemp]
          · simp only [depthF, hf, hemp, Bool.false_eq_true, if_false]
            have hmap : v.parentIds.map (depthF ns g₁) =
                v.parentIds.map (depthF ns g₂) := by
              apply List.map_congr_left
              intro p hp
              have hDp : D p < D i := hvid ▸ hDs v hv p hp
              exact ih p (by omega) g₁ g₂ (by omega) (by omega)
            rw [hmap]

theorem depthF_found (ns : List WorkflowNode) (fuel : Nat) (i : String)
    (v : WorkflowNode) (hf : ns.find? (fun n => n.id == i) = some v) :
    depthF ns (fuel + 1) i =
      if v.parentIds.isEmpty then 0
      else (v.parentIds.map (depthF ns fuel)).foldl Nat.max 0 + 1 := by
  show (match ns.find? (fun n => n.id == i) with
    | none => 0
    | some w =>
      if w.parentIds.isEmpty then 0
      else (w.parentIds.map (depthF ns fuel)).foldl Nat.max 0 + 1) = _
  rw [hf]

theorem depth_root (ns : List WorkflowNode)
    (hnd : (ns.map (fun n => n.id)).Nodup) (v : WorkflowNode) (hv : v ∈ ns)
    (hroot : v.parentIds = []) : depth ns v.id = 0 := by
  unfold depth
  rw [depthF_found ns ns.length v.id v (find?_id_of_nodup ns hnd v hv), hroot]
  rfl

theorem depth_parents (ns : List WorkflowNode) (D : String → Nat)
    (hDs : ∀ v ∈ ns, ∀ p ∈ v.parentIds, D p < D v.id)
    (hDb : ∀ v ∈ ns, D v.id ≤ ns.length)
    (hnd : (ns.map (fun n => n.id)).Nodup) (v : WorkflowNode) (hv : v ∈ ns)
    (hne : v.parentIds ≠ []) :
    depth ns v.id = (v.parentIds.map (depth ns)).foldl Nat.max 0 + 1 := by
  have hemp : v.parentIds.isEmpty = false := by
    cases hp : v.parentIds with
    | nil => exact absurd hp hne
    | cons _ _ => rfl
  have hstep : depth ns v.id =
      (v.parentIds.map (depthF ns ns.length)).foldl Nat.max 0 + 1 := by
    unfold depth
    rw [depthF_found ns ns.length v.id v (find?_id_of_nodup ns hnd v hv), hemp]
    rfl
  rw [hstep]
  have hmap : v.parentIds.map (depthF ns ns.length) =
      v.parentIds.map (depth ns) := by
    apply List.map_congr_left
    intro p hp
    have hDp : D p < D v.id := hDs v hv p hp
    have hDvb : D v.id ≤ ns.length := hDb v hv
    show depthF ns ns.length p = depthF ns (ns.length + 1) p
    exact depthF_fuel_congr ns D hDs (D p + 1) p (by omega) ns.length
      (ns.length + 1) (by omega) (by omega)
  rw [hmap]

theorem depth_le_D (ns : List WorkflowNode) (D : String → Nat)
    (hDs : ∀ v ∈ ns, ∀ p ∈ v.parentIds, D p < D v.id) :
    ∀ (b : Nat) (i : String), D i < b → ∀ (f : Nat), depthF ns f i ≤ D i := by
  intro b
  induction b with
  | zero => intro i hib; omega
  | succ b ih =>
    intro i hib f
    cases f with
    | zero => simp [depthF]
    | succ g =>
      cases hf : ns.find? (fun n => n.id == i) with
      | none => simp [depthF, hf]
      | some v =>
        have hv : v ∈ ns := List.mem_of_find?_eq_some hf
        have hvid : v.id = i := by simpa using List.find?_some hf
        by_cases hemp : v.parentIds.isEmpty
        · simp [depthF, hf, hemp]
        · simp only [depthF, hf, hemp, Bool.false_eq_true, if_false]
          have hne : v.parentIds ≠ [] := by
            cases hp : v.parentIds with
            | nil => rw [hp] at hemp; simp at hemp
            | cons _ _ => simp
          obtain ⟨p₀, hp₀⟩ := List.exists_mem_of_ne_nil v.parentIds hne
          have hDi1 : 1 ≤ D i := by
            have := hvid ▸ hDs v hv p₀ hp₀
            omega
          have hball : ∀ x ∈ v.parentIds.map (depthF ns g), x ≤ D i - 1 := by
            intro x hx
            obtain ⟨p, hp, hpe⟩ := List.mem_map.mp hx
            have hDp : D p < D i := hvid ▸ hDs v hv p hp
            have := ih p (by omega) g
            omega
          have := foldl_max_le (D i - 1) (v.parentIds.map (depthF ns g)) 0
            (Nat.zero_le _) hball
          omega

/-! ### C1: the early-exit loop computes the same map as pure iteration -/

theorem rankStep_shape (st : List (String × Nat) × Bool) (n : WorkflowNode) :
    rankStep st n = st ∨ ∃ m', rankStep st n = (m', true) := by
  unfold rankStep
  by_cases h1 : n.parentIds.isEmpty
  · left
    simp [h1]
  · simp only [h1, Bool.false_eq_true, if_false]
    cases hmax : maxParentRank st.1 n.parentIds with
    | none => left; rfl
    | some mpr =>
      cases hcur : mapFind? st.1 n.id with
      | none => right; exact ⟨_, rfl⟩
      | some cur =>
        by_cases hlt : cur < mpr + 1
        · right
          simp only [hlt, if_true]
          exact ⟨_, rfl⟩
        · left
          simp only [hlt, if_false]

theorem foldl_rankStep_flag (l : List WorkflowNode) :
    ∀ (m : List (String × Nat)), (l.foldl rankStep (m, true)).2 = true := by
  induction l with
  | nil => intro m; rfl
  | cons n rest ih =>
    intro m
    simp only [List.foldl_cons]
    rcases rankStep_shape (m, true) n with h | ⟨m', h⟩
    · rw [h]
      exact ih m
    · rw [h]
      exact ih m'

theorem foldl_rankStep_false (l : List WorkflowNode) :
    ∀ (st : List (String × Nat) × Bool),
      (l.foldl rankStep st).2 = false → l.foldl rankStep st = st := by
  induction l with
  | nil => intro st _; rfl
  | cons n rest ih =>
    intro st hf
    simp only [List.foldl_cons] at hf ⊢
    rcases rankStep_shape st n with h | ⟨m', h⟩
    · rw [h] at hf ⊢
      exact ih st hf
    · rw [h] at hf
      rw [foldl_rankStep_flag rest m'] at hf
      cases hf

theorem iterRank_stationary (sorted : List WorkflowNode)
    (m : List (String × Nat)) (h : (rankPass sorted m).1 = m) :
    ∀ k, iterRank sorted k m = m := by
  intro k
  induction k with
  | zero => rfl
  | succ k ih =>
    show iterRank sorted k (rankPass sorted m).1 = m
    rw [h]
    exact ih

theorem rankLoop_eq_iterRank (sorted : List WorkflowNode) :
    ∀ (fuel : Nat) (m : List (String × Nat)),
      (rankLoop sorted fuel m).1 = iterRank sorted fuel m := by
  intro fuel
  induction fuel with
  | zero => intro m; rfl
  | succ fuel ih =>
    intro m
    have hrl : rankLoop sorted (fuel + 1) m =
        (if (rankPass sorted m).2 then
          ((rankLoop sorted fuel (rankPass sorted m).1).1,
           (rankLoop sorted fuel (rankPass sorted m).1).2 + 1)
        else ((rankPass sorted m).1, 1)) := rfl
    have hir : iterRank sorted (fuel + 1) m =
        iterRank sorted fuel (rankPass sorted m).1 := rfl
    rw [hrl, hir]
    by_cases hc : (rankPass sorted m).2
    · rw [if_pos hc]
      exact ih _
    · rw [if_neg hc]
      have hff : (rankPass sorted m).2 = false := by
        cases h : (rankPass sorted m).2
        · rfl
        · exact absurd h hc
      have hstable : (rankPass sorted m).1 = m := by
        have := foldl_rankStep_false sorted (m, false) hff
        rw [show rankPass sorted m = sorted.foldl rankStep (m, false) from rfl,
          this]
      show (rankPass sorted m).1 = iterRank sorted fuel (rankPass sorted m).1
      rw [hstable, iterRank_stationary sorted m hstable fuel]

theorem iterRank_succ_right (l : List WorkflowNode) :
    ∀ (k : Nat) (m : List (String × Nat)),
      iterRank l (k + 1) m = (rankPass l (iterRank l k m)).1 := by
  intro k
  induction k with
  | zero => intro m; rfl
  | succ k ih =>
    intro m
    show iterRank l (k + 1) ((rankPass l m).1) = _
    rw [ih ((rankPass l m).1)]
    rfl

/-! ### C1: invariants of the rank pass -/

theorem maxParentRank_le (m : List (String × Nat)) (pids : List String)
    (B : Nat) (h : ∀ pid ∈ pids, ∀ r, mapFind? m pid = some r → r ≤ B) :
    ∀ mpr, maxParentRank m pids = some mpr → mpr ≤ B := by
  intro mpr hmpr
  have hres := foldlPreserves (mprStep m)
    (fun acc => ∀ a, acc = some a → a ≤ B) pids none
    (fun acc pid hpid hI => by
      unfold mprStep
      cases hl : mapFind? m pid with
      | none => exact hI
      | some r =>
        cases acc with
        | none =>
          intro a ha
          have hra := Option.some.inj ha
          subst hra
          exact h pid hpid r hl
        | some mm =>
          intro a ha
          have hra := Option.some.inj ha
          subst hra
          exact Nat.max_le.mpr ⟨hI mm rfl, h pid hpid r hl⟩)
    (fun a ha => by cases ha)
  exact hres mpr hmpr

theorem maxPR_atcap (m : List (String × Nat)) (dI : String → Nat) :
    ∀ (pids : List String) (a : Nat),
      (∀ pid ∈ pids, mapFind? m pid = some (dI pid)) →
      pids.foldl (mprStep m) (some a) = some ((pids.map dI).foldl Nat.max a) := by
  intro pids
  induction pids with
  | nil => intro a _; rfl
  | cons p ps ih =>
    intro a h
    have hp := h p (List.mem_cons_self p ps)
    have hstep : mprStep m (some a) p = some (Nat.max a (dI p)) := by
      unfold mprStep
      rw [hp]
    simp only [List.foldl_cons, List.map_cons]
    rw [hstep]
    exact ih (Nat.max a (dI p)) (fun q hq => h q (List.mem_cons_of_mem p hq))

theorem maxPR_atcap_full (m : List (String × Nat)) (dI : String → Nat)
    (pids : List String) (hne : pids ≠ [])
    (h : ∀ pid ∈ pids, mapFind? m pid = some (dI pid)) :
    maxParentRank m pids = some ((pids.map dI).foldl Nat.max 0) := by
  cases pids with
  | nil => exact absurd rfl hne
  | cons p ps =>
    unfold maxParentRank
    have hp := h p (List.mem_cons_self p ps)
    have hstep : mprStep m none p = some (dI p) := by
      unfold mprStep
      rw [hp]
    simp only [List.foldl_cons, List.map_cons]
    rw [hstep, maxPR_atcap m dI ps (dI p)
      (fun q hq => h q (List.mem_cons_of_mem p hq))]
    congr 1
    have hz : Nat.max 0 (dI p) = dI p := Nat.max_eq_right (Nat.zero_le _)
    rw [hz]

theorem rankStep_RB (dI : String → Nat) (n : WorkflowNode)
    (hn : n.parentIds ≠ [] → ∀ p ∈ n.parentIds, dI p < dI n.id)
    (st : List (String × Nat) × Bool)
    (hRB : ∀ i r, mapFind? st.1 i = some r → r ≤ dI i) :
    ∀ i r, mapFind? (rankStep st n).1 i = some r → r ≤ dI i := by
  unfold rankStep
  cases hemp : n.parentIds.isEmpty with
  | true =>
    simp only [hemp, if_true]
    exact hRB
  | false =>
    simp only [hemp, Bool.false_eq_true, if_false]
    cases hmax : maxParentRank st.1 n.parentIds with
    | none => exact hRB
    | some mpr =>
      have hne : n.parentIds ≠ [] := by
        cases hp : n.parentIds with
        | nil => rw [hp] at hemp; simp at hemp
        | cons _ _ => simp
      have hplt := hn hne
      obtain ⟨p₀, hp₀⟩ := List.exists_mem_of_ne_nil n.parentIds hne
      have hpos : 1 ≤ dI n.id := by
        have := hplt p₀ hp₀
        omega
      have hmprle : mpr ≤ dI n.id - 1 :=
        maxParentRank_le st.1 n.parentIds (dI n.id - 1)
          (fun pid hpid r hr => by
            have h1 := hRB pid r hr
            have h2 := hplt pid hpid
            omega)
          mpr hmax
      have hupd : ∀ i r, mapFind? (mapSet st.1 n.id (mpr + 1)) i = some r →
          r ≤ dI i := by
        intro i r hi
        by_cases hin : i = n.id
        · subst hin
          rw [mapFind?_mapSet_self] at hi
          have := Option.some.inj hi
          omega
        · rw [mapFind?_mapSet_ne _ _ _ _ hin] at hi
          exact hRB i r hi
      cases hcur : mapFind? st.1 n.id with
      | none => exact hupd
      | some cur =>
        by_cases hlt : cur < mpr + 1
        · simp only [hlt, if_true]
          exact hupd
        · simp only [hlt, if_false]
          exact hRB

theorem rankStep_mono (st : List (String × Nat) × Bool) (n : WorkflowNode)
    (i : String) (r : Nat) (h : mapFind? st.1 i = some r) :
    ∃ r2, mapFind? (rankStep st n).1 i = some r2 ∧ r ≤ r2 := by
  unfold rankStep
  cases hemp : n.parentIds.isEmpty with
  | true =>
    simp only [hemp, if_true]
    exact ⟨r, h, Nat.le_refl r⟩
  | false =>
    simp only [hemp, Bool.false_eq_true, if_false]
    cases hmax : maxParentRank st.1 n.parentIds with
    | none => exact ⟨r, h, Nat.le_refl r⟩
    | some mpr =>
      cases hcur : mapFind? st.1 n.id with
      | none =>
        by_cases hin : i = n.id
        · subst hin
          rw [h] at hcur
          cases hcur
        · refine ⟨r, ?_, Nat.le_refl r⟩
          rw [mapFind?_mapSet_ne _ _ _ _ hin]
          exact h
      | some cur =>
        by_cases hlt : cur < mpr + 1
        · simp only [hlt, if_true]
          by_cases hin : i = n.id
          · subst hin
            have hcr : r = cur := by
              rw [h] at hcur
              exact Option.some.inj hcur
            refine ⟨mpr + 1, mapFind?_mapSet_self _ _ _, by omega⟩
          · refine ⟨r, ?_, Nat.le_refl r⟩
            rw [mapFind?_mapSet_ne _ _ _ _ hin]
            exact h
        · simp only [hlt, if_false]
          exact ⟨r, h, Nat.le_refl r⟩

theorem rankStep_atcap (dI : String → Nat) (n : WorkflowNode)
    (hn : n.parentIds ≠ [] → ∀ p ∈ n.parentIds, dI p < dI n.id)
    (st : List (String × Nat) × Bool)
    (hRB : ∀ i r, mapFind? st.1 i = some r → r ≤ dI i) (i : String)
    (hcap : mapFind? st.1 i = some (dI i)) :
    mapFind? (rankStep st n).1 i = some (dI i) := by
  obtain ⟨r2, h2, hle⟩ := rankStep_mono st n i (dI i) hcap
  have hub := rankStep_RB dI n hn st hRB i r2 h2
  have hr2 : r2 = dI i := Nat.le_antisymm hub hle
  rw [h2, hr2]

theorem initRanks_values (l : List WorkflowNode) :
    ∀ i r, mapFind? (initRanks l) i = some r → r = 0 := by
  refine foldlPreserves _ (fun m => ∀ i r, mapFind? m i = some r → r = 0) l []
    ?_ ?_
  · intro m n _ hI i r hi
    by_cases hemp : n.parentIds.isEmpty
    · rw [if_pos hemp] at hi
      by_cases hin : i = n.id
      · subst hin
        rw [mapFind?_mapSet_self] at hi
        exact (Option.some.inj hi).symm
      · rw [mapFind?_mapSet_ne _ _ _ _ hin] at hi
        exact hI i r hi
    · rw [if_neg hemp] at hi
      exact hI i r hi
  · intro i r hi
    cases hi

theorem initRanks_RB (l : List WorkflowNode) (dI : String → Nat) :
    ∀ i r, mapFind? (initRanks l) i = some r → r ≤ dI i := by
  intro i r h
  have := initRanks_values l i r h
  omega

theorem initRanks_root (l : List WorkflowNode) (v : WorkflowNode)
    (hv : v ∈ l) (hroot : v.parentIds = []) :
    mapFind? (initRanks l) v.id = some 0 := by
  have hkeep : ∀ (t' : List WorkflowNode) (m : List (String × Nat)),
      mapFind? m v.id = some 0 →
      mapFind? (t'.foldl
        (fun m n => if n.parentIds.isEmpty then mapSet m n.id 0 else m) m)
        v.id = some 0 := by
    intro t' m h
    refine foldlPreserves _ (fun m' => mapFind? m' v.id = some 0) t' m ?_ h
    intro m' n _ hI
    by_cases hemp : n.parentIds.isEmpty
    · rw [if_pos hemp]
      by_cases hin : n.id = v.id
      · rw [hin]
        exact mapFind?_mapSet_self _ _ _
      · rw [mapFind?_mapSet_ne _ _ _ _ (Ne.symm hin)]
        exact hI
    · rw [if_neg hemp]
      exact hI
  obtain ⟨s, t, hst⟩ := List.append_of_mem hv
  subst hst
  unfold initRanks
  rw [List.foldl_append, List.foldl_cons]
  apply hkeep t
  rw [if_pos (show v.parentIds.isEmpty = true by rw [hroot]; rfl)]
  exact mapFind?_mapSet_self _ _ _

theorem rankStep_sets (dI : String → Nat) (v : WorkflowNode)
    (hvne : v.parentIds ≠ [])
    (hrec : dI v.id = (v.parentIds.map dI).foldl Nat.max 0 + 1)
    (st : List (String × Nat) × Bool)
    (hRB : ∀ i r, mapFind? st.1 i = some r → r ≤ dI i)
    (hparcap : ∀ p ∈ v.parentIds, mapFind? st.1 p = some (dI p)) :
    mapFind? (rankStep st v).1 v.id = some (dI v.id) := by
  have hmax := maxPR_atcap_full st.1 dI v.parentIds hvne hparcap
  unfold rankStep
  have hemp : v.parentIds.isEmpty = false := by
    cases hp : v.parentIds with
    | nil => exact absurd hp hvne
    | cons _ _ => rfl
  simp only [hemp, Bool.false_eq_true, if_false]
  cases hmax2 : maxParentRank st.1 v.parentIds with
  | none => rw [hmax] at hmax2; cases hmax2
  | some mpr =>
    have hmpr : mpr = (v.parentIds.map dI).foldl Nat.max 0 := by
      rw [hmax] at hmax2
      exact (Option.some.inj hmax2).symm
    cases hcur : mapFind? st.1 v.id with
    | none =>
      rw [mapFind?_mapSet_self, hmpr, ← hrec]
    | some cur =>
      have hle : cur ≤ dI v.id := hRB v.id cur hcur
      by_cases hlt : cur < mpr + 1
      · simp only [hlt, if_true]
        rw [mapFind?_mapSet_self, hmpr, ← hrec]
      · simp only [hlt, if_false]
        have hcv : cur = dI v.id := by omega
        rw [hcur, hcv]

theorem rankPass_hits (l : List WorkflowNode) (dI : String → Nat)
    (hB : ∀ n ∈ l, n.parentIds ≠ [] → ∀ p ∈ n.parentIds, dI p < dI n.id)
    (v : WorkflowNode) (hv : v ∈ l) (hvne : v.parentIds ≠ [])
    (hrec : dI v.id = (v.parentIds.map dI).foldl Nat.max 0 + 1)
    (m : List (String × Nat)) (c : Bool)
    (hRB : ∀ i r, mapFind? m i = some r → r ≤ dI i)
    (hparcap : ∀ p ∈ v.parentIds, mapFind? m p = some (dI p)) :
    mapFind? (l.foldl rankStep (m, c)).1 v.id = some (dI v.id) := by
  obtain ⟨s, t, hst⟩ := List.append_of_mem hv
  subst hst
  rw [List.foldl_append, List.foldl_cons]
  have hmems : ∀ n ∈ s, n ∈ s ++ v :: t :=
    fun n hn => List.mem_append.mpr (Or.inl hn)
  have hmemt : ∀ n ∈ t, n ∈ s ++ v :: t :=
    fun n hn => List.mem_append.mpr (Or.inr (List.mem_cons_of_mem v hn))
  have hvmem : v ∈ s ++ v :: t :=
    List.mem_append.mpr (Or.inr (List.mem_cons_self v t))
  have hs := foldlPreserves rankStep
    (fun st => (∀ i r, mapFind? st.1 i = some r → r ≤ dI i) ∧
      ∀ p ∈ v.parentIds, mapFind? st.1 p = some (dI p)) s (m, c)
    (fun st n hn hI => ⟨rankStep_RB dI n (hB n (hmems n hn)) st hI.1,
      fun p hp => rankStep_atcap dI n (hB n (hmems n hn)) st hI.1 p (hI.2 p hp)⟩)
    ⟨hRB, hparcap⟩
  have hstep : mapFind? (rankStep (s.foldl rankStep (m, c)) v).1 v.id =
      some (dI v.id) :=
    rankStep_sets dI v hvne hrec (s.foldl rankStep (m, c)) hs.1 hs.2
  exact (foldlPreserves rankStep
    (fun st => (mapFind? st.1 v.id = some (dI v.id)) ∧
      ∀ i r, mapFind? st.1 i = some r → r ≤ dI i) t
    (rankStep (s.foldl rankStep (m, c)) v)
    (fun st n hn hI => ⟨rankStep_atcap dI n (hB n (hmemt n hn)) st hI.2
        v.id hI.1,
      rankStep_RB dI n (hB n (hmemt n hn)) st hI.2⟩)
    ⟨hstep, rankStep_RB dI v (hB v hvmem) _ hs.1⟩).1

/-! ### C1: the rank map computes the canonical depth on well-formed inputs -/

theorem computeRanks_eq_depth (ns : List WorkflowNode)
    (hnd : (ns.map (fun n => n.id)).Nodup)
    (hpar : ∀ v ∈ ns, ∀ p ∈ v.parentIds, p ∈ ns.map (fun n => n.id))
    (hacy : AcyclicNodes ns) :
    ∀ v ∈ ns, mapFind? (computeRanks ns) v.id = some (depth ns v.id) := by
  obtain ⟨D, hDs, hDb⟩ := hacy
  have hBns : ∀ n ∈ ns, n.parentIds ≠ [] → ∀ p ∈ n.parentIds,
      depth ns p < depth ns n.id := by
    intro n hn hne p hp
    rw [depth_parents ns D hDs hDb hnd n hn hne]
    have hle := (le_foldl_max (n.parentIds.map (depth ns)) 0).2 (depth ns p)
      (List.mem_map_of_mem _ hp)
    omega
  have hBsorted : ∀ n ∈ sortedByDate ns, n.parentIds ≠ [] →
      ∀ p ∈ n.parentIds, depth ns p < depth ns n.id :=
    fun n hn => hBns n ((stableSort_perm dateLe ns).mem_iff.mp hn)
  have hRBiter : ∀ k, ∀ i r, mapFind? (iterRank (sortedByDate ns) k
      (initRanks (sortedByDate ns))) i = some r → r ≤ depth ns i := by
    intro k
    induction k with
    | zero => exact initRanks_RB _ _
    | succ k ih =>
      rw [iterRank_succ_right]
      exact foldlPreserves rankStep
        (fun st => ∀ i r, mapFind? st.1 i = some r → r ≤ depth ns i)
        (sortedByDate ns)
        (iterRank (sortedByDate ns) k (initRanks (sortedByDate ns)), false)
        (fun st n hn hI => rankStep_RB (depth ns) n (hBsorted n hn) st hI) ih
  have hsettle : ∀ k, ∀ v ∈ ns, depth ns v.id ≤ k →
      mapFind? (iterRank (sortedByDate ns) k
        (initRanks (sortedByDate ns))) v.id = some (depth ns v.id) := by
    intro k
    induction k with
    | zero =>
      intro v hv hd
      have hroot : v.parentIds = [] := by
        by_contra hne
        rw [depth_parents ns D hDs hDb hnd v hv hne] at hd
        omega
      have h0 := initRanks_root (sortedByDate ns) v
        ((stableSort_perm dateLe ns).mem_iff.mpr hv) hroot
      show mapFind? (initRanks (sortedByDate ns)) v.id = some (depth ns v.id)
      rw [h0, depth_root ns hnd v hv hroot]
    | succ k ih =>
      intro v hv hd
      rw [iterRank_succ_right]
      by_cases hdk : depth ns v.id ≤ k
      · have hcap := ih v hv hdk
        exact (foldlPreserves rankStep
          (fun st => mapFind? st.1 v.id = some (depth ns v.id) ∧
            ∀ i r, mapFind? st.1 i = some r → r ≤ depth ns i)
          (sortedByDate ns)
          (iterRank (sortedByDate ns) k (initRanks (sortedByDate ns)), false)
          (fun st n hn hI => ⟨rankStep_atcap (depth ns) n (hBsorted n hn) st
              hI.2 v.id hI.1,
            rankStep_RB (depth ns) n (hBsorted n hn) st hI.2⟩)
          ⟨hcap, hRBiter k⟩).1
      · have hdeq : depth ns v.id = k + 1 := by omega
        rcases eq_or_ne v.parentIds [] with hroot | hvne
        · rw [depth_root ns hnd v hv hroot] at hdeq
          omega
        · have hrec := depth_parents ns D hDs hDb hnd v hv hvne
          have hparcap : ∀ p ∈ v.parentIds, mapFind? (iterRank (sortedByDate ns)
              k (initRanks (sortedByDate ns))) p = some (depth ns p) := by
            intro p hp
            obtain ⟨u, hu, hue⟩ := List.mem_map.mp (hpar v hv p hp)
            have hdp : depth ns p < depth ns v.id := hBns v hv hvne p hp
            have hdu : depth ns u.id ≤ k := by rw [hue]; omega
            have hres := ih u hu hdu
            rw [hue] at hres
            exact hres
          exact rankPass_hits (sortedByDate ns) (depth ns) hBsorted v
            ((stableSort_perm dateLe ns).mem_iff.mpr hv) hvne hrec _ false
            (hRBiter k) hparcap
  intro v hv
  have hdD : depth ns v.id ≤ D v.id := by
    have : depth ns v.id = depthF ns (ns.length + 1) v.id := rfl
    rw [this]
    exact depth_le_D ns D hDs (D v.id + 1) v.id (by omega) (ns.length + 1)
  have hdN : depth ns v.id ≤ ns.length := Nat.le_trans hdD (hDb v hv)
  have hset := hsettle (ns.length + 2) v hv (by omega)
  have hcr : computeRanks ns = applyFallback (sortedByDate ns)
      (rankLoop (sortedByDate ns) (ns.length + 2)
        (initRanks (sortedByDate ns))).1 := rfl
  rw [hcr, rankLoop_eq_iterRank]
  unfold applyFallback
  have henum : (sortedByDate ns).enum = List.enumFrom 0 (sortedByDate ns) := rfl
  rw [henum]
  exact fallback_foldl_keeps _ _ _ _ hset

theorem mapM_option_some {α β : Type} (f : α → Option β) (g : α → β) :
    ∀ (l : List α), (∀ a ∈ l, f a = some (g a)) →
      l.mapM f = some (l.map g) := by
  intro l
  induction l with
  | nil => intro _; rfl
  | cons a t ih =>
    intro h
    rw [List.mapM_cons, h a (List.mem_cons_self a t),
      ih (fun b hb => h b (List.mem_cons_of_mem a hb))]
    rfl

/-- C1 (amended): for every input node list with pairwise-distinct ids in
which every listed parent id refers to a node present in the list and the
parent relation is acyclic, `calculateLayout`'s rank computation assigns each
node with a non-empty `parentIds` list a rank equal to `1 +` the maximum of
its parents' ranks, and assigns rank `0` to every node whose `parentIds` list
is empty.  (The ranks are keyed by id, so with duplicate ids the claim as
stated fails; see the counterexample.) -/
theorem c1_rank_invariant (ns : List WorkflowNode)
    (hnd : (ns.map (fun n => n.id)).Nodup)
    (hpar : ∀ v ∈ ns, ∀ p ∈ v.parentIds, p ∈ ns.map (fun n => n.id))
    (hacy : AcyclicNodes ns) :
    ∀ v ∈ ns,
      (v.parentIds = [] → mapFind? (computeRanks ns) v.id = some 0) ∧
      (v.parentIds ≠ [] → ∃ rs,
        v.parentIds.mapM (mapFind? (computeRanks ns)) = some rs ∧
        mapFind? (computeRanks ns) v.id = some (rs.foldl Nat.max 0 + 1)) := by
  have hall := computeRanks_eq_depth ns hnd hpar hacy
  obtain ⟨D, hDs, hDb⟩ := hacy
  intro v hv
  constructor
  · intro hroot
    rw [hall v hv, depth_root ns hnd v hv hroot]
  · intro hne
    refine ⟨v.parentIds.map (depth ns), ?_, ?_⟩
    · apply mapM_option_some
      intro p hp
      obtain ⟨u, hu, hue⟩ := List.mem_map.mp (hpar v hv p hp)
      have hres := hall u hu
      rw [hue] at hres
      exact hres
    · rw [hall v hv, depth_parents ns D hDs hDb hnd v hv hne]

/-- Witness for C1 on the two-node chain root → child with an explicit acyclic
height witness. -/
theorem c1_rank_invariant_witness :
    (nChild.parentIds = [] →
      mapFind? (computeRanks [nRoot, nChild]) nChild.id = some 0) ∧
    (nChild.parentIds ≠ [] → ∃ rs,
      nChild.parentIds.mapM (mapFind? (computeRanks [nRoot, nChild])) =
        some rs ∧
      mapFind? (computeRanks [nRoot, nChild]) nChild.id =
        some (rs.foldl Nat.max 0 + 1)) :=
  c1_rank_invariant [nRoot, nChild] (by decide) (by decide)
    ⟨fun i => if i = "root" then 0 else 1, by decide, by decide⟩
    nChild (by decide)

/-- Counterexample to C1 as stated: with a duplicated id the rank map is keyed
by id, so a root sharing its id with a ranked child does not get rank 0, even
though all parents are present and the parent relation is acyclic. -/
theorem c1_duplicate_ids_counterexample :
    (∀ v ∈ [nDupRoot, nBase, nDupChild], ∀ p ∈ v.parentIds,
      p ∈ [nDupRoot, nBase, nDupChild].map (fun n => n.id)) ∧
    AcyclicNodes [nDupRoot, nBase, nDupChild] ∧
    nDupRoot ∈ [nDupRoot, nBase, nDupChild] ∧
    nDupRoot.parentIds = [] ∧
    mapFind? (computeRanks [nDupRoot, nBase, nDupChild]) nDupRoot.id ≠
      some 0 :=
  ⟨by decide, ⟨fun i => if i = "base" then 0 else 1, by decide, by decide⟩,
   by decide, by decide, by decide⟩

end Roadmaps
